import Mathlib

/-!
# tcp-proxy-telemetry: the instrumented stream wrapper and the copy loop

A shallow embedding of `main.go`.  Go code that mutates the outside world
(connections, the clock, the metrics sink) is written as explicit state
passing over a world state `W`: a call takes the world before it and returns
its results together with the world after it.

* a Go `error` is `Option GoError`, `none` being `nil`;
* a Go `[]byte` is a `List Byte`; a callee that fills its argument `p`
  returns the bytes it stored at the front of `p`, and the caller sees
  `overwrite p data`;
* a Go `int` byte count is an `Int`;
* a `func(int, time.Duration)` field is an `Option (Observer W)`, `none`
  being the `nil` function value.
-/

namespace TcpProxy

/-! ## Go values -/

/-- One byte of a Go byte slice. -/
abbrev Byte := Fin 256

/-- The non-nil Go `error` values the program distinguishes: the sentinels of
package `io` that `io.Copy` compares against or produces, and any other error
(a network error of a connection), told apart by its message. -/
inductive GoError where
  | EOF
  | ErrShortWrite
  | errInvalidWrite
  | other (msg : String)
  deriving DecidableEq, Repr

/-- A Go `error`: `none` is `nil`. -/
abbrev GoErr := Option GoError

/-- The smallest `int64`. -/
def minInt64 : Int := -(2 ^ 63)

/-- The largest `int64`. -/
def maxInt64 : Int := 2 ^ 63 - 1

/-- Two's-complement wrap-around of `int64` arithmetic. -/
def wrapInt64 (x : Int) : Int := (x + 2 ^ 63) % 2 ^ 64 - 2 ^ 63

/-- A `time.Duration`: an `int64` count of nanoseconds. -/
structure Duration where
  ns : Int
  deriving DecidableEq, Repr

/-- A `time.Time` as `time.Now()` returns it: the reading of the monotonic
clock, in nanoseconds. -/
structure Time where
  mono : Int
  deriving DecidableEq, Repr

/-- `t.Sub(u)` of package `time` for two readings with a monotonic part: the
difference `t - u`, saturated to the range of `int64`. -/
def Time.Sub (t u : Time) : Duration :=
  if t.mono - u.mono > maxInt64 then ⟨maxInt64⟩
  else if t.mono - u.mono < minInt64 then ⟨minInt64⟩
  else ⟨t.mono - u.mono⟩

/-- `d.Milliseconds()` of package `time`: `int64(d) / 1e6`, the division
truncating toward zero. -/
def Duration.Milliseconds (d : Duration) : Int := Int.tdiv d.ns 1000000

/-- `d.Microseconds()` of package `time`: `int64(d) / 1e3`, the division
truncating toward zero. -/
def Duration.Microseconds (d : Duration) : Int := Int.tdiv d.ns 1000

/-- What the caller of `Read(p)` finds in `p` afterwards when the callee stored
`data` at the front of `p`: a slice never changes length under a callee. -/
def overwrite : List Byte → List Byte → List Byte
  | [], _ => []
  | b :: p, [] => b :: p
  | _ :: p, d :: data => d :: overwrite p data

/-! ## Streams, the clock and observers -/

/-- The method `Read(p []byte) (n int, err error)` of an `io.Reader` over the
world `W`: the count, the error and the bytes stored at the front of `p`. -/
abbrev ReadFn (W : Type) := List Byte → W → (Int × GoErr × List Byte) × W

/-- The method `Write(p []byte) (n int, err error)` of an `io.Writer` over the
world `W`. -/
abbrev WriteFn (W : Type) := List Byte → W → (Int × GoErr) × W

/-- An `io.ReadWriter`. -/
structure ReadWriter (W : Type) where
  Read : ReadFn W
  Write : WriteFn W

/-- The function `time.Now()`: reading the clock is a step of the world. -/
abbrev Clock (W : Type) := W → Time × W

/-- A non-nil `func(int, time.Duration)`: whatever it does, it does to the
world. -/
abbrev Observer (W : Type) := Int → Duration → W → W

/-- The struct `ReadWriteNotifier` of `main.go`. -/
structure ReadWriteNotifier (W : Type) where
  readWriter : ReadWriter W
  onWrite : Option (Observer W)
  onRead : Option (Observer W)

/-- The method `(*ReadWriteNotifier).Write`:
`start := time.Now(); n, err := rwn.readWriter.Write(p);`
`if err == nil && rwn.onWrite != nil { rwn.onWrite(n, time.Now().Sub(start)) };`
`return n, err`. -/
def ReadWriteNotifier.Write {W : Type} (now : Clock W) (rwn : ReadWriteNotifier W) :
    WriteFn W := fun p w =>
  let (start, w1) := now w
  let ((n, err), w2) := rwn.readWriter.Write p w1
  match err, rwn.onWrite with
  | none, some f =>
    let (t, w3) := now w2
    ((n, err), f n (t.Sub start) w3)
  | _, _ => ((n, err), w2)

/-- The method `(*ReadWriteNotifier).Read`:
`start := time.Now(); n, err := rwn.readWriter.Read(p);`
`if err == nil && rwn.onRead != nil { rwn.onRead(n, time.Now().Sub(start)) };`
`return n, err`. -/
def ReadWriteNotifier.Read {W : Type} (now : Clock W) (rwn : ReadWriteNotifier W) :
    ReadFn W := fun p w =>
  let (start, w1) := now w
  let ((n, err, data), w2) := rwn.readWriter.Read p w1
  match err, rwn.onRead with
  | none, some f =>
    let (t, w3) := now w2
    ((n, err, data), f n (t.Sub start) w3)
  | _, _ => ((n, err, data), w2)

/-! ## Recording what a run does

To speak of how often something is called and with what, a stream or an
observer over `W` is turned into one over `W × List Event` that does what the
original does to `W` and appends a record of the call to the list. -/

/-- One call to an underlying stream or to an observer, with what it was
passed and what it returned. -/
inductive Event where
  | read (p : List Byte) (n : Int) (err : GoErr) (data : List Byte)
  | write (p : List Byte) (n : Int) (err : GoErr)
  | onRead (n : Int) (d : Duration)
  | onWrite (n : Int) (d : Duration)
  deriving DecidableEq, Repr

/-- A world together with the record of the calls made so far. -/
abbrev Rec (W : Type) := W × List Event

/-- The reader `r`, recording each call. -/
def recRead {W : Type} (r : ReadFn W) : ReadFn (Rec W) := fun p s =>
  let (res, w) := r p s.1
  (res, (w, s.2 ++ [Event.read p res.1 res.2.1 res.2.2]))

/-- The writer `f`, recording each call. -/
def recWrite {W : Type} (f : WriteFn W) : WriteFn (Rec W) := fun p s =>
  let (res, w) := f p s.1
  (res, (w, s.2 ++ [Event.write p res.1 res.2]))

/-- The stream `rw`, recording each call. -/
def recRW {W : Type} (rw : ReadWriter W) : ReadWriter (Rec W) :=
  ⟨recRead rw.Read, recWrite rw.Write⟩

/-- The write-observer `f`, recording each call. -/
def recOnWrite {W : Type} (f : Observer W) : Observer (Rec W) := fun n d s =>
  (f n d s.1, s.2 ++ [Event.onWrite n d])

/-- The read-observer `f`, recording each call. -/
def recOnRead {W : Type} (f : Observer W) : Observer (Rec W) := fun n d s =>
  (f n d s.1, s.2 ++ [Event.onRead n d])

/-- The clock `now` on a recorded world; reading it is not recorded. -/
def recClock {W : Type} (now : Clock W) : Clock (Rec W) := fun s =>
  let (t, w) := now s.1
  (t, (w, s.2))

/-- The reader `r` on a recorded world, its calls not recorded. -/
def liftRead {W : Type} (r : ReadFn W) : ReadFn (Rec W) := fun p s =>
  let (res, w) := r p s.1
  (res, (w, s.2))

/-- The wrapper around `rw` with observers `f` and `g` (either may be `nil`),
every call to `rw` and to an observer recorded. -/
def recNotifier {W : Type} (rw : ReadWriter W) (f g : Option (Observer W)) :
    ReadWriteNotifier (Rec W) :=
  ⟨recRW rw, f.map recOnWrite, g.map recOnRead⟩

/-! ## The copy loop -/

/-- How a call that may not return normally ended. -/
inductive Outcome (α : Type) where
  | ret (a : α)
  | panic
  deriving DecidableEq, Repr

/-- The size of the buffer `io.Copy` allocates: `32 * 1024`. -/
def copyBufSize : Nat := 32 * 1024

/-- The body of `if nr > 0 { ... }` in the loop of `io.copyBuffer`, for the
buffer contents `buf` after the read:
`nw, ew := dst.Write(buf[0:nr]);`
`if nw < 0 || nr < nw { nw = 0; if ew == nil { ew = errInvalidWrite } };`
`written += int64(nw);`
`if ew != nil { err = ew; break }; if nr != nw { err = ErrShortWrite; break }`.
The slice expression `buf[0:nr]` panics when `nr` exceeds the capacity of the
buffer, which is `32 * 1024` throughout.  `Sum.inl` is leaving the loop (by `break` or by the panic),
`Sum.inr` is falling through with the new value of `written`. -/
def copyChunk {W : Type} (dst : WriteFn W) (buf : List Byte) (nr written : Int) (w : W) :
    (Outcome (Int × GoErr) ⊕ Int) × W :=
  if (copyBufSize : Int) < nr then (Sum.inl Outcome.panic, w)
  else
    let ((nw0, ew0), w1) := dst (buf.take nr.toNat) w
    let invalid : Bool := decide (nw0 < 0 ∨ nr < nw0)
    let nw : Int := if invalid then 0 else nw0
    let ew : GoErr := if invalid && ew0.isNone then some GoError.errInvalidWrite else ew0
    let written1 := wrapInt64 (written + nw)
    match ew with
    | some e => (Sum.inl (Outcome.ret (written1, some e)), w1)
    | none =>
      if nr ≠ nw then (Sum.inl (Outcome.ret (written1, some GoError.ErrShortWrite)), w1)
      else (Sum.inr written1, w1)

/-- The loop of `io.copyBuffer` (Go standard library), which `io.Copy` runs on
a fresh buffer when the source has no `WriteTo` and the destination no
`ReadFrom` method, as is the case for `*ReadWriteNotifier`:
`for { nr, er := src.Read(buf); if nr > 0 { ... };`
`if er != nil { if er != EOF { err = er }; break } }; return written, err`.
Each unit of fuel pays for one turn of the loop; `none` is running out of
fuel. -/
def copyLoop {W : Type} (src : ReadFn W) (dst : WriteFn W) :
    Nat → List Byte → Int → W → Option (Outcome (Int × GoErr)) × W
  | 0, _, _, w => (none, w)
  | fuel + 1, buf, written, w =>
    let ((nr, er, data), w1) := src buf w
    let buf1 := overwrite buf data
    let (c, w2) :=
      if 0 < nr then copyChunk dst buf1 nr written w1 else (Sum.inr written, w1)
    match c with
    | Sum.inl out => (some out, w2)
    | Sum.inr written1 =>
      match er with
      | some e =>
        (some (Outcome.ret (written1, if e = GoError.EOF then none else some e)), w2)
      | none => copyLoop src dst fuel buf1 written1 w2

/-- The function `io.Copy(dst, src)`: `copyBuffer(dst, src, nil)`, which makes
the buffer with `make([]byte, 32*1024)`. -/
def ioCopy {W : Type} (dst : WriteFn W) (src : ReadFn W) (fuel : Nat) (w : W) :
    Option (Outcome (Int × GoErr)) × W :=
  copyLoop src dst fuel (List.replicate copyBufSize 0) 0 w

/-- The function `stream` of `main.go`:
`_, err := io.Copy(destination, source); return err`. -/
def stream {W : Type} (source : ReadFn W) (destination : WriteFn W) (fuel : Nat) (w : W) :
    Option (Outcome GoErr) × W :=
  match ioCopy destination source fuel w with
  | (some (Outcome.ret (_, err)), w1) => (some (Outcome.ret err), w1)
  | (some Outcome.panic, w1) => (some Outcome.panic, w1)
  | (none, w1) => (none, w1)

/-! ## The metrics sink and the wrappers of `main` -/

/-- One call that reaches the metrics backend or the log: `Add` on an
`Int64Counter`, `Record` on an `Int64ValueRecorder` (each with the name of the
instrument, the value and the labels passed), and the `log.Printf` of the
write-observers with its two arguments. -/
inductive SinkEvent where
  | add (instrument : String) (value : Int) (labels : List (String × String))
  | record (instrument : String) (value : Int) (labels : List (String × String))
  | printf (n : Int) (d : Duration)
  deriving DecidableEq, Repr

/-- Everything the metrics backend and the log have received, oldest first. -/
abbrev Sink := List SinkEvent

/-- The `onWrite` closure of the client-facing wrapper in `main`:
`requestBytes.Add(ctx, int64(n));`
`requestLatency.Record(ctx, duration.Milliseconds());`
`log.Printf("%d bytes written in %s", n, duration)`.
The conversion `int64(n)` of an `int` keeps the value. -/
def clientOnWrite (n : Int) (duration : Duration) (s : Sink) : Sink :=
  s ++ [SinkEvent.add "request.bytes" n [],
        SinkEvent.record "request.latency" duration.Milliseconds [],
        SinkEvent.printf n duration]

/-- The `onRead` closure of the client-facing wrapper in `main`: its body is
two commented-out lines. -/
def clientOnRead (_n : Int) (_duration : Duration) (s : Sink) : Sink := s

/-- The `onWrite` closure of the upstream-facing wrapper in `main`:
`requestBytes.Add(ctx, int64(n));`
`requestLatency.Record(ctx, duration.Microseconds());`
`log.Printf("%d bytes written in %s", n, duration)`. -/
def targetOnWrite (n : Int) (duration : Duration) (s : Sink) : Sink :=
  s ++ [SinkEvent.add "request.bytes" n [],
        SinkEvent.record "request.latency" duration.Microseconds [],
        SinkEvent.printf n duration]

/-- The `onRead` closure of the upstream-facing wrapper in `main`: its body is
two commented-out lines. -/
def targetOnRead (_n : Int) (_duration : Duration) (s : Sink) : Sink := s

/-- A connection over `C`, in a world that also holds the sink. -/
def onConn {C : Type} (rw : ReadWriter C) : ReadWriter (C × Sink) :=
  ⟨fun p w => let (r, c) := rw.Read p w.1; (r, (c, w.2)),
   fun p w => let (r, c) := rw.Write p w.1; (r, (c, w.2))⟩

/-- A closure over the sink, in a world that also holds the connections. -/
def onSink {C : Type} (f : Int → Duration → Sink → Sink) : Observer (C × Sink) :=
  fun n d w => (w.1, f n d w.2)

/-- The first argument of `duplexStream` in `main`:
`&ReadWriteNotifier{readWriter: clientConn, onWrite: ..., onRead: ...}`. -/
def clientNotifier {C : Type} (clientConn : ReadWriter C) : ReadWriteNotifier (C × Sink) :=
  { readWriter := onConn clientConn
    onWrite := some (onSink clientOnWrite)
    onRead := some (onSink clientOnRead) }

/-- The second argument of `duplexStream` in `main`:
`&ReadWriteNotifier{readWriter: targetConn, onWrite: ..., onRead: ...}`. -/
def targetNotifier {C : Type} (targetConn : ReadWriter C) : ReadWriteNotifier (C × Sink) :=
  { readWriter := onConn targetConn
    onWrite := some (onSink targetOnWrite)
    onRead := some (onSink targetOnRead) }

/-! ## Reading a record -/

/-- The event is a call to an underlying stream. -/
def Event.isCall : Event → Bool
  | Event.read _ _ _ _ => true
  | Event.write _ _ _ => true
  | _ => false

/-- The bytes a recorded read delivered: `p[0:n]` after the call when
`n > 0`, nothing otherwise. -/
def Event.chunk : Event → List Byte
  | Event.read p n _ data => if 0 < n then (overwrite p data).take n.toNat else []
  | _ => []

/-- The bytes a recorded write took from its argument: `p[0:n]`. -/
def Event.accepted : Event → List Byte
  | Event.write p n _ => p.take n.toNat
  | _ => []

/-- The bytes the reads of a record delivered, in order. -/
def bytesRead (log : List Event) : List Byte := (log.map Event.chunk).flatten

/-- The bytes the writes of a record took, in order. -/
def bytesWritten (log : List Event) : List Byte := (log.map Event.accepted).flatten

/-- The byte counts passed to the write-observer, in order. -/
def observedWrites : List Event → List Int
  | [] => []
  | Event.onWrite n _ :: log => n :: observedWrites log
  | _ :: log => observedWrites log

/-- The byte counts the underlying `Write` calls returned, in order. -/
def writeCounts : List Event → List Int
  | [] => []
  | Event.write _ n _ :: log => n :: writeCounts log
  | _ :: log => writeCounts log

/-- The byte counts the underlying `Write` calls returned together with a
`nil` error, in order. -/
def cleanWriteCounts : List Event → List Int
  | [] => []
  | Event.write _ n none :: log => n :: cleanWriteCounts log
  | _ :: log => cleanWriteCounts log

/-! ## Stand-ins for connections -/

/-- A stream that plays back a script: the results its `Read` calls return and
the results its `Write` calls return, in order. -/
structure Script where
  reads : List (Int × GoErr × List Byte)
  writes : List (Int × GoErr)
  deriving DecidableEq, Repr

/-- The `Read` of a scripted stream: the next scripted result, and
`(0, io.EOF)` once the script has run out. -/
def Script.Read : ReadFn Script := fun _ s =>
  match s.reads with
  | [] => ((0, some GoError.EOF, []), s)
  | r :: rest => (r, { s with reads := rest })

/-- The `Write` of a scripted stream: the next scripted result, and the whole
argument accepted, `(len(p), nil)`, once the script has run out. -/
def Script.Write : WriteFn Script := fun p s =>
  match s.writes with
  | [] => ((p.length, none), s)
  | r :: rest => (r, { s with writes := rest })

/-- The scripted stream as an `io.ReadWriter`. -/
def Script.rw : ReadWriter Script := ⟨Script.Read, Script.Write⟩

/-- A clock that stands still. -/
def stillClock {W : Type} : Clock W := fun w => (⟨0⟩, w)

/-- A one-way wire: the chunks still to arrive at the reading end and the
bytes that left at the writing end. -/
structure Wire where
  pending : List (List Byte)
  received : List Byte
  deriving DecidableEq, Repr

/-- The `Read` of the reading end: the next pending chunk, as much of it as
fits into `p`, the rest staying pending; `(0, io.EOF)` when nothing is
pending. -/
def Wire.Read : ReadFn Wire := fun p s =>
  match s.pending with
  | [] => ((0, some GoError.EOF, []), s)
  | c :: rest =>
    if c.length ≤ p.length then ((c.length, none, c), { s with pending := rest })
    else ((p.length, none, c.take p.length),
          { s with pending := c.drop p.length :: rest })

/-- The `Write` of a writing end that takes at most `m` bytes per call and
reports how many it took, without an error. -/
def Wire.Write (m : Nat) : WriteFn Wire := fun p s =>
  ((min p.length m, none), { s with received := s.received ++ p.take m })

/-- The wire as an `io.ReadWriter` whose writing end takes at most `m` bytes
per call. -/
def Wire.rw (m : Nat) : ReadWriter Wire := ⟨Wire.Read, Wire.Write m⟩

/-- The `Write` of a writing end that takes all of its argument. -/
def Wire.WriteAll : WriteFn Wire := fun p s =>
  ((p.length, none), { s with received := s.received ++ p })

/-- How much is pending on a wire: its bytes and one more for every chunk. -/
def Wire.size (s : Wire) : Nat := (s.pending.map fun c => c.length + 1).sum

/-- The wrapper `rwn`, every call to its stream and to its observers
recorded. -/
def recorded {W : Type} (rwn : ReadWriteNotifier W) : ReadWriteNotifier (Rec W) :=
  recNotifier rwn.readWriter rwn.onWrite rwn.onRead

/-- The source of the client-to-upstream direction of a session of `main`, on
a wire: the `Read` of the client-facing wrapper. -/
def relaySource (m : Nat) (now : Clock (Wire × Sink)) : ReadFn (Rec (Wire × Sink)) :=
  (recorded (clientNotifier (Wire.rw m))).Read (recClock now)

/-- The destination of the client-to-upstream direction of a session of
`main`, on a wire whose writing end takes at most `m` bytes per call: the
`Write` of the upstream-facing wrapper. -/
def relayDest (m : Nat) (now : Clock (Wire × Sink)) : WriteFn (Rec (Wire × Sink)) :=
  (recorded (targetNotifier (Wire.rw m))).Write (recClock now)

/-! ## The shape of a run of the copy loop -/

/-- The error with which the block `if nr > 0 { ... }` of `io.copyBuffer`
leaves the loop after a write that returned `(nw0, ew0)` for `nr` bytes:
the write's own error, else `errInvalidWrite` for a count that is negative or
above `nr`, else `ErrShortWrite` for a count other than `nr`; `none` when the
block falls through. -/
def verdict (nr nw0 : Int) (ew0 : GoErr) : GoErr :=
  match (if decide (nw0 < 0 ∨ nr < nw0) && ew0.isNone then some GoError.errInvalidWrite
         else ew0) with
  | some e => some e
  | none =>
    if nr ≠ (if decide (nw0 < 0 ∨ nr < nw0) then 0 else nw0) then some GoError.ErrShortWrite
    else none

/-- What `stream` keeps of the result of `io.Copy`: the error. -/
def strip : Option (Outcome (Int × GoErr)) → Option (Outcome GoErr)
  | some (Outcome.ret (_, err)) => some (Outcome.ret err)
  | some Outcome.panic => some Outcome.panic
  | none => none

/-- The records a run of the copy loop can leave, with the result of the run:
turn after turn a read, followed by the write of what it delivered when it
delivered something, until the fuel runs out (`fuel`), the slice expression
panics (`panic`), the write block leaves the loop (`broke`), or the read
returned an error (`ended` after a write, `ended0` without one). -/
inductive Trace : List Event → Option (Outcome GoErr) → Prop
  | fuel : Trace [] none
  | panic {p n er data} : p.length = copyBufSize → 0 < n → (copyBufSize : Int) < n →
      Trace [Event.read p n er data] (some Outcome.panic)
  | broke {p n er data nw ew e} : p.length = copyBufSize → 0 < n → n ≤ (copyBufSize : Int) →
      verdict n nw ew = some e →
      Trace [Event.read p n er data, Event.write ((overwrite p data).take n.toNat) nw ew]
        (some (Outcome.ret (some e)))
  | ended {p n data nw ew e} : p.length = copyBufSize → 0 < n → n ≤ (copyBufSize : Int) →
      verdict n nw ew = none →
      Trace [Event.read p n (some e) data, Event.write ((overwrite p data).take n.toNat) nw ew]
        (some (Outcome.ret (if e = GoError.EOF then none else some e)))
  | ended0 {p n data e} : p.length = copyBufSize → n ≤ 0 →
      Trace [Event.read p n (some e) data]
        (some (Outcome.ret (if e = GoError.EOF then none else some e)))
  | turn {p n data nw ew rest res} : p.length = copyBufSize → 0 < n →
      n ≤ (copyBufSize : Int) → verdict n nw ew = none → Trace rest res →
      Trace (Event.read p n none data ::
        Event.write ((overwrite p data).take n.toNat) nw ew :: rest) res
  | turn0 {p n data rest res} : p.length = copyBufSize → n ≤ 0 → Trace rest res →
      Trace (Event.read p n none data :: rest) res

/-! ## Theorems -/

/-! ### Unfolding the copy loop -/

/-- The result of `stream` is the result of the copy loop on a fresh buffer, the byte total dropped. -/
theorem stream_eq {W : Type} (src : ReadFn W) (dst : WriteFn W) (fuel : Nat) (w : W) :
    stream src dst fuel w =
      (strip (copyLoop src dst fuel (List.replicate copyBufSize 0) 0 w).1,
       (copyLoop src dst fuel (List.replicate copyBufSize 0) 0 w).2) := by
  unfold stream ioCopy
  generalize copyLoop src dst fuel (List.replicate copyBufSize 0) 0 w = r
  rcases r with ⟨_ | ⟨⟨_, _⟩⟩ | _, _⟩ <;> rfl

/-- The write block of the loop, by the error it leaves the loop with. -/
theorem copyChunk_eq {W : Type} (dst : WriteFn W) (buf : List Byte) (nr written : Int) (w : W) :
    copyChunk dst buf nr written w =
      if (copyBufSize : Int) < nr then (Sum.inl Outcome.panic, w)
      else
        let r := dst (buf.take nr.toNat) w
        let written1 := wrapInt64 (written + (if decide (r.1.1 < 0 ∨ nr < r.1.1) then 0 else r.1.1))
        match verdict nr r.1.1 r.1.2 with
        | some e => (Sum.inl (Outcome.ret (written1, some e)), r.2)
        | none => (Sum.inr written1, r.2) := by
  unfold copyChunk verdict
  split
  · rfl
  · generalize dst (buf.take nr.toNat) w = r
    rcases r with ⟨⟨nw, ew⟩, w1⟩
    by_cases h1 : nw < 0 <;> by_cases h2 : nr < nw <;> cases ew <;>
      by_cases hn : nr = nw <;> simp [h1, h2] <;> simp [hn]

/-- One turn of the copy loop, on the components of what the read returned. -/
theorem copyLoop_succ {W : Type} (src : ReadFn W) (dst : WriteFn W) (fuel : Nat)
    (buf : List Byte) (written : Int) (w : W) :
    copyLoop src dst (fuel + 1) buf written w =
      let r := src buf w
      let buf1 := overwrite buf r.1.2.2
      let c := if 0 < r.1.1 then copyChunk dst buf1 r.1.1 written r.2 else (Sum.inr written, r.2)
      match c.1 with
      | Sum.inl out => (some out, c.2)
      | Sum.inr written1 =>
        match r.1.2.1 with
        | some e => (some (Outcome.ret (written1, if e = GoError.EOF then none else some e)), c.2)
        | none => copyLoop src dst fuel buf1 written1 c.2 := by
  rfl

/-- One turn of the copy loop, case by case. -/
theorem copyLoop_turn {W : Type} (src : ReadFn W) (dst : WriteFn W) (fuel : Nat)
    (buf : List Byte) (written : Int) (w : W) :
    copyLoop src dst (fuel + 1) buf written w =
      if 0 < (src buf w).1.1 then
        if (copyBufSize : Int) < (src buf w).1.1 then (some Outcome.panic, (src buf w).2)
        else
          match verdict (src buf w).1.1
            (dst ((overwrite buf (src buf w).1.2.2).take (src buf w).1.1.toNat) (src buf w).2).1.1
            (dst ((overwrite buf (src buf w).1.2.2).take (src buf w).1.1.toNat) (src buf w).2).1.2 with
          | some e =>
            (some (Outcome.ret (wrapInt64 (written +
                (if decide ((dst ((overwrite buf (src buf w).1.2.2).take (src buf w).1.1.toNat) (src buf w).2).1.1 < 0 ∨
                    (src buf w).1.1 < (dst ((overwrite buf (src buf w).1.2.2).take (src buf w).1.1.toNat) (src buf w).2).1.1)
                  then 0
                  else (dst ((overwrite buf (src buf w).1.2.2).take (src buf w).1.1.toNat) (src buf w).2).1.1)),
                some e)),
              (dst ((overwrite buf (src buf w).1.2.2).take (src buf w).1.1.toNat) (src buf w).2).2)
          | none =>
            match (src buf w).1.2.1 with
            | some e =>
              (some (Outcome.ret (wrapInt64 (written +
                  (if decide ((dst ((overwrite buf (src buf w).1.2.2).take (src buf w).1.1.toNat) (src buf w).2).1.1 < 0 ∨
                      (src buf w).1.1 < (dst ((overwrite buf (src buf w).1.2.2).take (src buf w).1.1.toNat) (src buf w).2).1.1)
                    then 0
                    else (dst ((overwrite buf (src buf w).1.2.2).take (src buf w).1.1.toNat) (src buf w).2).1.1)),
                  if e = GoError.EOF then none else some e)),
                (dst ((overwrite buf (src buf w).1.2.2).take (src buf w).1.1.toNat) (src buf w).2).2)
            | none =>
              copyLoop src dst fuel (overwrite buf (src buf w).1.2.2)
                (wrapInt64 (written +
                  (if decide ((dst ((overwrite buf (src buf w).1.2.2).take (src buf w).1.1.toNat) (src buf w).2).1.1 < 0 ∨
                      (src buf w).1.1 < (dst ((overwrite buf (src buf w).1.2.2).take (src buf w).1.1.toNat) (src buf w).2).1.1)
                    then 0
                    else (dst ((overwrite buf (src buf w).1.2.2).take (src buf w).1.1.toNat) (src buf w).2).1.1)))
                (dst ((overwrite buf (src buf w).1.2.2).take (src buf w).1.1.toNat) (src buf w).2).2
      else
        match (src buf w).1.2.1 with
        | some e =>
          (some (Outcome.ret (written, if e = GoError.EOF then none else some e)), (src buf w).2)
        | none => copyLoop src dst fuel (overwrite buf (src buf w).1.2.2) written (src buf w).2 := by
  rw [copyLoop_succ]
  generalize src buf w = r
  rcases r with ⟨⟨nr, er, data⟩, w1⟩
  simp only
  by_cases hpos : 0 < nr
  · simp only [hpos, if_true, copyChunk_eq]
    by_cases hcap : (copyBufSize : Int) < nr
    · simp only [hcap, if_true]
    · simp only [hcap, if_false]
      generalize dst (List.take nr.toNat (overwrite buf data)) w1 = r2
      rcases r2 with ⟨⟨nw, ew⟩, w2⟩
      simp only
      cases verdict nr nw ew <;> rfl
  · simp only [hpos, if_false]

/-- A callee does not change the length of the slice it fills. -/
theorem overwrite_length (p data : List Byte) : (overwrite p data).length = p.length := by
  induction p generalizing data with
  | nil => simp [overwrite]
  | cons b p ih => cases data <;> simp [overwrite, ih]

/-- A run of the copy loop between a recorded source and a recorded destination
adds to the record a list of events of the shape `Trace`. -/
theorem copyLoop_trace {W : Type} (src : ReadFn W) (dst : WriteFn W) (fuel : Nat) :
    ∀ (buf : List Byte) (written : Int) (w : W) (log : List Event),
      buf.length = copyBufSize →
      ∃ new, (copyLoop (recRead src) (recWrite dst) fuel buf written (w, log)).2.2 = log ++ new ∧
        Trace new (strip (copyLoop (recRead src) (recWrite dst) fuel buf written (w, log)).1) := by
  induction fuel with
  | zero =>
    intro buf written w log _
    exact ⟨[], by simp [copyLoop], by simpa [copyLoop, strip] using Trace.fuel⟩
  | succ fuel ih =>
    intro buf written w log hbuf
    rcases hr : src buf w with ⟨⟨nr, er, data⟩, w1⟩
    have hrec : recRead src buf (w, log) =
        ((nr, er, data), (w1, log ++ [Event.read buf nr er data])) := by
      simp [recRead, hr]
    rw [copyLoop_turn]
    simp only [hrec]
    by_cases hpos : 0 < nr
    · simp only [hpos, if_true]
      by_cases hcap : (copyBufSize : Int) < nr
      · simp only [hcap, if_true]
        exact ⟨[Event.read buf nr er data], rfl,
          by simpa [strip] using Trace.panic hbuf hpos hcap⟩
      · simp only [hcap, if_false]
        rcases hr2 : dst (List.take nr.toNat (overwrite buf data)) w1 with ⟨⟨nw, ew⟩, w2⟩
        have hrec2 : recWrite dst (List.take nr.toNat (overwrite buf data))
            (w1, log ++ [Event.read buf nr er data]) =
            ((nw, ew), (w2, log ++ [Event.read buf nr er data] ++
              [Event.write (List.take nr.toNat (overwrite buf data)) nw ew])) := by
          simp [recWrite, hr2]
        simp only [hrec2]
        cases hv : verdict nr nw ew with
        | some e =>
          simp only
          exact ⟨[Event.read buf nr er data,
              Event.write (List.take nr.toNat (overwrite buf data)) nw ew], by simp,
            by simpa [strip] using Trace.broke hbuf hpos (not_lt.mp hcap) hv⟩
        | none =>
          simp only
          cases er with
          | some e =>
            simp only
            exact ⟨[Event.read buf nr (some e) data,
                Event.write (List.take nr.toNat (overwrite buf data)) nw ew], by simp,
              by simpa [strip] using Trace.ended hbuf hpos (not_lt.mp hcap) hv⟩
          | none =>
            simp only
            obtain ⟨new, h1, h2⟩ := ih (overwrite buf data)
              (wrapInt64 (written + if decide (nw < 0 ∨ nr < nw) = true then 0 else nw)) w2
              (log ++ [Event.read buf nr none data] ++
                [Event.write (List.take nr.toNat (overwrite buf data)) nw ew])
              (by rw [overwrite_length, hbuf])
            refine ⟨Event.read buf nr none data ::
              Event.write (List.take nr.toNat (overwrite buf data)) nw ew :: new, ?_, ?_⟩
            · rw [h1]; simp
            · exact Trace.turn hbuf hpos (not_lt.mp hcap) hv h2
    · simp only [hpos, if_false]
      cases er with
      | some e =>
        simp only
        exact ⟨[Event.read buf nr (some e) data], rfl,
          by simpa [strip] using Trace.ended0 hbuf (not_lt.mp hpos)⟩
      | none =>
        simp only
        obtain ⟨new, h1, h2⟩ := ih (overwrite buf data) written w1
          (log ++ [Event.read buf nr none data]) (by rw [overwrite_length, hbuf])
        refine ⟨Event.read buf nr none data :: new, ?_, ?_⟩
        · rw [h1]; simp
        · exact Trace.turn0 hbuf (not_lt.mp hpos) h2

/-! ### Recording changes nothing -/

/-- Recording changes nothing: the copy loop between a recorded source and a
recorded destination returns what it returns between the plain ones and leaves
the same world. -/
theorem copyLoop_rec {W : Type} (src : ReadFn W) (dst : WriteFn W) (fuel : Nat) :
    ∀ (buf : List Byte) (written : Int) (w : W) (log : List Event),
      (copyLoop (recRead src) (recWrite dst) fuel buf written (w, log)).1 =
          (copyLoop src dst fuel buf written w).1 ∧
        (copyLoop (recRead src) (recWrite dst) fuel buf written (w, log)).2.1 =
          (copyLoop src dst fuel buf written w).2 := by
  induction fuel with
  | zero => intro buf written w log; simp [copyLoop]
  | succ fuel ih =>
    intro buf written w log
    rcases hr : src buf w with ⟨⟨nr, er, data⟩, w1⟩
    have hrec : recRead src buf (w, log) =
        ((nr, er, data), (w1, log ++ [Event.read buf nr er data])) := by
      simp [recRead, hr]
    rw [copyLoop_turn, copyLoop_turn]
    simp only [hrec, hr]
    by_cases hpos : 0 < nr
    · by_cases hcap : (copyBufSize : Int) < nr
      · simp only [hpos, hcap, if_true]
        exact ⟨trivial, trivial⟩
      · simp only [hpos, hcap, if_true, if_false]
        rcases hr2 : dst (List.take nr.toNat (overwrite buf data)) w1 with ⟨⟨nw, ew⟩, w2⟩
        have hrec2 : recWrite dst (List.take nr.toNat (overwrite buf data))
            (w1, log ++ [Event.read buf nr er data]) =
            ((nw, ew), (w2, log ++ [Event.read buf nr er data] ++
              [Event.write (List.take nr.toNat (overwrite buf data)) nw ew])) := by
          simp [recWrite, hr2]
        simp only [hrec2]
        cases verdict nr nw ew with
        | some e => exact ⟨rfl, rfl⟩
        | none =>
          cases er with
          | some e => exact ⟨rfl, rfl⟩
          | none => exact ih _ _ _ _
    · simp only [hpos, if_false]
      cases er with
      | some e => exact ⟨rfl, rfl⟩
      | none => exact ih _ _ _ _

/-- Recording changes nothing: `stream` between a recorded source and a
recorded destination returns what it returns between the plain ones and leaves
the same world. -/
theorem stream_rec {W : Type} (src : ReadFn W) (dst : WriteFn W) (fuel : Nat) (w : W) :
    (stream (recRead src) (recWrite dst) fuel (w, [])).1 = (stream src dst fuel w).1 ∧
    (stream (recRead src) (recWrite dst) fuel (w, [])).2.1 = (stream src dst fuel w).2 := by
  obtain ⟨h1, h2⟩ := copyLoop_rec src dst fuel (List.replicate copyBufSize 0) 0 w []
  rw [stream_eq, stream_eq]
  exact ⟨by simp only [h1], h2⟩

/-! ### The wrapper -/

/-- C1. With a write-observer present, `ReadWriteNotifier.Write` makes one call
to the underlying `Write` and then, when that call returned no error, calls
the write-observer exactly once, with the count `n` the call returned (and the
time between the two clock readings); when the call returned an error it calls
no observer at all.  The same holds for `Read` and a present read-observer.
The record after the call is the record before it followed by exactly these
events. -/
theorem notifier_observer_once {W : Type} (now : Clock W) (rw : ReadWriter W)
    (f g : Observer W) (f' g' : Option (Observer W)) (p : List Byte) (w : W) (log : List Event) :
    (let r := rw.Write p (now w).2
     let d := (now r.2).1.Sub (now w).1
     let out := (recNotifier rw (some f) g').Write (recClock now) p (w, log)
     (r.1.2 = none →
        out.2.2 = log ++ [Event.write p r.1.1 none, Event.onWrite r.1.1 d] ∧
        out.2.1 = f r.1.1 d (now r.2).2) ∧
     (r.1.2 ≠ none → out.2.2 = log ++ [Event.write p r.1.1 r.1.2] ∧ out.2.1 = r.2)) ∧
    (let r := rw.Read p (now w).2
     let d := (now r.2).1.Sub (now w).1
     let out := (recNotifier rw f' (some g)).Read (recClock now) p (w, log)
     (r.1.2.1 = none →
        out.2.2 = log ++ [Event.read p r.1.1 none r.1.2.2, Event.onRead r.1.1 d] ∧
        out.2.1 = g r.1.1 d (now r.2).2) ∧
     (r.1.2.1 ≠ none →
        out.2.2 = log ++ [Event.read p r.1.1 r.1.2.1 r.1.2.2] ∧ out.2.1 = r.2)) := by
  constructor
  · simp only [ReadWriteNotifier.Write, recNotifier, recRW, recWrite, recClock, Option.map]
    cases h : (rw.Write p (now w).2).1.2 <;> simp [h, recOnWrite]
  · simp only [ReadWriteNotifier.Read, recNotifier, recRW, recRead, recClock, Option.map]
    cases h : (rw.Read p (now w).2).1.2.1 <;> simp [h, recOnRead]

/-- C2. Whatever observers are set or `nil`, `ReadWriteNotifier.Write` and
`ReadWriteNotifier.Read` return exactly the `(count, error)` pair of the
underlying call, a partial write included, and the record gains exactly one
call to the underlying stream, with the same buffer.  With a `nil` observer the
call does what the underlying call does and nothing else, and returns the same
pair as with an observer present. -/
theorem notifier_passes_through {W : Type} (now : Clock W) (rw : ReadWriter W)
    (f g : Option (Observer W)) (p : List Byte) (w : W) (log : List Event) :
    (let r := rw.Write p (now w).2
     let out := (recNotifier rw f g).Write (recClock now) p (w, log)
     let quiet := (recNotifier rw none g).Write (recClock now) p (w, log)
     out.1 = r.1 ∧
     out.2.2.filter Event.isCall = log.filter Event.isCall ++ [Event.write p r.1.1 r.1.2] ∧
     quiet = (r.1, (r.2, log ++ [Event.write p r.1.1 r.1.2])) ∧ quiet.1 = out.1) ∧
    (let r := rw.Read p (now w).2
     let out := (recNotifier rw f g).Read (recClock now) p (w, log)
     let quiet := (recNotifier rw f none).Read (recClock now) p (w, log)
     out.1 = r.1 ∧
     out.2.2.filter Event.isCall =
       log.filter Event.isCall ++ [Event.read p r.1.1 r.1.2.1 r.1.2.2] ∧
     quiet = (r.1, (r.2, log ++ [Event.read p r.1.1 r.1.2.1 r.1.2.2])) ∧ quiet.1 = out.1) := by
  constructor
  · simp only [ReadWriteNotifier.Write, recNotifier, recRW, recWrite, recClock]
    cases h : (rw.Write p (now w).2).1.2 <;> cases f <;>
      simp [h, recOnWrite, Event.isCall, Prod.ext_iff]
  · simp only [ReadWriteNotifier.Read, recNotifier, recRW, recRead, recClock]
    cases h : (rw.Read p (now w).2).1.2.1 <;> cases g <;>
      simp [h, recOnRead, Event.isCall, Prod.ext_iff]

/-! ### The shape of a run -/

/-- A write that returned an error leaves the loop with that error. -/
theorem verdict_some (n nw : Int) (e : GoError) : verdict n nw (some e) = some e := by
  simp [verdict]

/-- A write accepted in full and without error lets the loop go on. -/
theorem verdict_none_same (n : Int) (h : 0 ≤ n) : verdict n n none = none := by
  have : ¬ n < 0 := by omega
  simp [verdict, this]

/-- A write without error that took another count than offered leaves the loop
with an invalid-write or a short-write error. -/
theorem verdict_none_ne (n nw : Int) (h : nw ≠ n) :
    verdict n nw none =
      some (if nw < 0 ∨ n < nw then GoError.errInvalidWrite else GoError.ErrShortWrite) := by
  by_cases hb : nw < 0 ∨ n < nw
  · simp [verdict, hb]
  · simp [verdict, hb, Ne.symm h]

/-- The loop goes on only after a write accepted in full and without error. -/
theorem verdict_eq_none {n nw : Int} {ew : GoErr} (h : verdict n nw ew = none) :
    ew = none ∧ nw = n := by
  cases ew with
  | some e => simp [verdict_some] at h
  | none =>
    refine ⟨rfl, ?_⟩
    by_contra hne
    rw [verdict_none_ne n nw hne] at h
    simp at h

/-- The record of a run of `stream` has the shape `Trace`. -/
theorem stream_trace {W : Type} (src : ReadFn W) (dst : WriteFn W) (fuel : Nat) (w : W) :
    Trace (stream (recRead src) (recWrite dst) fuel (w, [])).2.2
      (stream (recRead src) (recWrite dst) fuel (w, [])).1 := by
  obtain ⟨new, h1, h2⟩ := copyLoop_trace src dst fuel (List.replicate copyBufSize 0) 0 w []
    (List.length_replicate _ _)
  rw [stream_eq]
  simp only
  rw [h1]
  simpa using h2

/-- What follows an event that ends a run, and the result of that run. -/
theorem trace_split {t : List Event} {res : Option (Outcome GoErr)} (ht : Trace t res) :
    ∀ (pre : List Event) (e : Event) (post : List Event), t = pre ++ e :: post →
      (∀ p n err, e = Event.write p n (some err) →
        post = [] ∧ res = some (Outcome.ret (some err))) ∧
      (∀ p n err data, e = Event.read p n (some err) data → n ≤ 0 →
        post = [] ∧ res = some (Outcome.ret (if err = GoError.EOF then none else some err))) ∧
      (∀ p n err data, e = Event.read p n (some err) data → 0 < n → (copyBufSize : Int) < n →
        post = [] ∧ res = some Outcome.panic) ∧
      (∀ p n err data, e = Event.read p n (some err) data → 0 < n → n ≤ (copyBufSize : Int) →
        ∃ nw ew, post = [Event.write ((overwrite p data).take n.toNat) nw ew] ∧
          res = some (Outcome.ret (match verdict n nw ew with
            | some e' => some e'
            | none => if err = GoError.EOF then none else some err))) := by
  induction ht with
  | fuel => intro pre e post h; simp at h
  | panic hp hpos hcap =>
    intro pre e post h
    rcases pre with _ | ⟨x, pre⟩
    · simp at h
      obtain ⟨rfl, rfl⟩ := h
      refine ⟨?_, ?_, ?_, ?_⟩
      · intro p n err h; simp at h
      · intro p n err data h hn; simp at h; omega
      · intro p n err data h _ _; exact ⟨rfl, rfl⟩
      · intro p n err data h _ hn; simp at h; omega
    · simp at h
  | broke hp hpos hcap hv =>
    intro pre e post h
    rcases pre with _ | ⟨x, _ | ⟨y, pre⟩⟩
    · simp at h
      obtain ⟨rfl, rfl⟩ := h
      refine ⟨?_, ?_, ?_, ?_⟩
      · intro p n err h; simp at h
      · intro p n err data h hn; simp at h; omega
      · intro p n err data h _ hn; simp at h; omega
      · intro p n err data h _ hn
        simp at h
        obtain ⟨rfl, rfl, rfl, rfl⟩ := h
        exact ⟨_, _, rfl, by simp [hv]⟩
    · simp at h
      obtain ⟨rfl, rfl, rfl⟩ := h
      refine ⟨?_, ?_, ?_, ?_⟩
      · intro p n err h
        simp at h
        obtain ⟨rfl, rfl, rfl⟩ := h
        rw [verdict_some] at hv
        simp at hv
        subst hv
        exact ⟨rfl, rfl⟩
      · intro p n err data h; simp at h
      · intro p n err data h; simp at h
      · intro p n err data h; simp at h
    · simp at h
  | ended hp hpos hcap hv =>
    intro pre e post h
    rcases pre with _ | ⟨x, _ | ⟨y, pre⟩⟩
    · simp at h
      obtain ⟨rfl, rfl⟩ := h
      refine ⟨?_, ?_, ?_, ?_⟩
      · intro p n err h; simp at h
      · intro p n err data h hn; simp at h; omega
      · intro p n err data h _ hn; simp at h; omega
      · intro p n err data h _ hn
        simp at h
        obtain ⟨rfl, rfl, rfl, rfl⟩ := h
        exact ⟨_, _, rfl, by simp [hv]⟩
    · simp at h
      obtain ⟨rfl, rfl, rfl⟩ := h
      refine ⟨?_, ?_, ?_, ?_⟩
      · intro p n err h
        simp at h
        obtain ⟨rfl, rfl, rfl⟩ := h
        simp [verdict_some] at hv
      · intro p n err data h; simp at h
      · intro p n err data h; simp at h
      · intro p n err data h; simp at h
    · simp at h
  | ended0 hp hn0 =>
    intro pre e post h
    rcases pre with _ | ⟨x, pre⟩
    · simp at h
      obtain ⟨rfl, rfl⟩ := h
      refine ⟨?_, ?_, ?_, ?_⟩
      · intro p n err h; simp at h
      · intro p n err data h hn
        simp at h
        obtain ⟨rfl, rfl, rfl, rfl⟩ := h
        exact ⟨rfl, rfl⟩
      · intro p n err data h hn; simp at h; omega
      · intro p n err data h hn; simp at h; omega
    · simp at h
  | turn hp hpos hcap hv _ ih =>
    intro pre e post h
    rcases pre with _ | ⟨x, _ | ⟨y, pre⟩⟩
    · simp at h
      obtain ⟨rfl, rfl⟩ := h
      refine ⟨?_, ?_, ?_, ?_⟩ <;> intros <;> simp_all
    · simp at h
      obtain ⟨rfl, rfl, rfl⟩ := h
      refine ⟨?_, ?_, ?_, ?_⟩
      · intro p n err h
        simp at h
        obtain ⟨rfl, rfl, rfl⟩ := h
        simp [verdict_some] at hv
      · intro p n err data h; simp at h
      · intro p n err data h; simp at h
      · intro p n err data h; simp at h
    · simp at h
      obtain ⟨rfl, rfl, h⟩ := h
      exact ih pre e post h
  | turn0 hp hn0 _ ih =>
    intro pre e post h
    rcases pre with _ | ⟨x, pre⟩
    · simp at h
      obtain ⟨rfl, rfl⟩ := h
      refine ⟨?_, ?_, ?_, ?_⟩ <;> intros <;> simp_all
    · simp at h
      obtain ⟨rfl, h⟩ := h
      exact ih pre e post h

/-! ### How a run ends -/

/-- A run that returned `nil` read until the source signalled `io.EOF`: its
record holds a read that returned `io.EOF`, every read before it returned no
error, and after it comes at most the write of the bytes it delivered. -/
theorem trace_nil_eof {t : List Event} {res : Option (Outcome GoErr)} (ht : Trace t res)
    (hres : res = some (Outcome.ret none)) :
    ∃ pre p n data post, t = pre ++ Event.read p n (some GoError.EOF) data :: post ∧
      (∀ p' n' e' d', Event.read p' n' e' d' ∈ pre → e' = none) ∧
      (∀ p' n' e' d', Event.read p' n' e' d' ∉ post) := by
  induction ht with
  | fuel => simp at hres
  | panic hp hpos hcap => simp at hres
  | broke hp hpos hcap hv => simp at hres
  | @ended p n data nw ew e hp hpos hcap hv =>
    by_cases he : e = GoError.EOF
    · subst he
      exact ⟨[], p, n, data, [Event.write ((overwrite p data).take n.toNat) nw ew], rfl,
        by simp, by simp⟩
    · simp [he] at hres
  | @ended0 p n data e hp hn0 =>
    by_cases he : e = GoError.EOF
    · subst he
      exact ⟨[], p, n, data, [], rfl, by simp, by simp⟩
    · simp [he] at hres
  | @turn p n data nw ew rest res hp hpos hcap hv _ ih =>
    obtain ⟨pre, p', n', data', post, h1, h2, h3⟩ := ih hres
    refine ⟨Event.read p n none data ::
      Event.write ((overwrite p data).take n.toNat) nw ew :: pre, p', n', data', post,
      by simp [h1], ?_, h3⟩
    intro p'' n'' e'' d'' hmem
    simp at hmem
    rcases hmem with ⟨_, _, rfl, _⟩ | hmem
    · rfl
    · exact h2 _ _ _ _ hmem
  | @turn0 p n data rest res hp hn0 _ ih =>
    obtain ⟨pre, p', n', data', post, h1, h2, h3⟩ := ih hres
    refine ⟨Event.read p n none data :: pre, p', n', data', post, by simp [h1], ?_, h3⟩
    intro p'' n'' e'' d'' hmem
    simp at hmem
    rcases hmem with ⟨_, _, rfl, _⟩ | hmem
    · rfl
    · exact h2 _ _ _ _ hmem

/-- C6, amended. Take any event of the record of a run of `stream`.
A write that returned an error is the last event, and `stream` returned that
error.  A read that returned an error without delivering bytes (`n ≤ 0`) is
the last event, and `stream` returned `nil` for `io.EOF` and the read's error
otherwise.  A read that returned an error and a count within the buffer
(`0 < n ≤ 32768`) is followed by exactly one write, of those bytes, and by
nothing else: `stream` returned the write's error when that write failed,
`nil` for `io.EOF` or the read's error when the write was accepted in full,
and a short-write or invalid-write error otherwise.  A read that returned an
error and a count above the buffer (`n > 32768`) is the last event, and
`stream` panicked.  A run that returned `nil` read until the source signalled
`io.EOF`, no read before that one returned an error and no read follows it.
The recorded run returns what the plain run of `stream` returns. -/
theorem stream_ends {W : Type} (src : ReadFn W) (dst : WriteFn W) (fuel : Nat) (w : W)
    (pre : List Event) (e : Event) (post : List Event)
    (h : (stream (recRead src) (recWrite dst) fuel (w, [])).2.2 = pre ++ e :: post) :
    (∀ p n err, e = Event.write p n (some err) →
      post = [] ∧
      (stream (recRead src) (recWrite dst) fuel (w, [])).1 = some (Outcome.ret (some err))) ∧
    (∀ p n err data, e = Event.read p n (some err) data → n ≤ 0 →
      post = [] ∧
      (stream (recRead src) (recWrite dst) fuel (w, [])).1 =
        some (Outcome.ret (if err = GoError.EOF then none else some err))) ∧
    (∀ p n err data, e = Event.read p n (some err) data → 0 < n → n ≤ (copyBufSize : Int) →
      ∃ nw ew, post = [Event.write ((overwrite p data).take n.toNat) nw ew] ∧
        (∀ e', ew = some e' →
          (stream (recRead src) (recWrite dst) fuel (w, [])).1 = some (Outcome.ret (some e'))) ∧
        (ew = none → nw = n →
          (stream (recRead src) (recWrite dst) fuel (w, [])).1 =
            some (Outcome.ret (if err = GoError.EOF then none else some err))) ∧
        (ew = none → nw ≠ n →
          (stream (recRead src) (recWrite dst) fuel (w, [])).1 =
            some (Outcome.ret (some (if nw < 0 ∨ n < nw then GoError.errInvalidWrite
              else GoError.ErrShortWrite))))) ∧
    (∀ p n err data, e = Event.read p n (some err) data → (copyBufSize : Int) < n →
      post = [] ∧
      (stream (recRead src) (recWrite dst) fuel (w, [])).1 = some Outcome.panic) ∧
    ((stream (recRead src) (recWrite dst) fuel (w, [])).1 = some (Outcome.ret none) →
      ∃ pre' p n data post',
        (stream (recRead src) (recWrite dst) fuel (w, [])).2.2 =
          pre' ++ Event.read p n (some GoError.EOF) data :: post' ∧
        (∀ p' n' e' d', Event.read p' n' e' d' ∈ pre' → e' = none) ∧
        (∀ p' n' e' d', Event.read p' n' e' d' ∉ post')) ∧
    (stream (recRead src) (recWrite dst) fuel (w, [])).1 = (stream src dst fuel w).1 := by
  obtain ⟨h1, h2, h3, h4⟩ := trace_split (stream_trace src dst fuel w) pre e post h
  refine ⟨h1, h2, ?_, ?_, trace_nil_eof (stream_trace src dst fuel w), (stream_rec src dst fuel w).1⟩
  · intro p n err data he hpos hcap
    obtain ⟨nw, ew, hpost, hres⟩ := h4 p n err data he hpos hcap
    refine ⟨nw, ew, hpost, ?_, ?_, ?_⟩
    · intro e' hew
      rw [hres, hew, verdict_some]
    · intro hew hn
      rw [hres, hew, hn, verdict_none_same n (le_of_lt hpos)]
    · intro hew hn
      rw [hres, hew, verdict_none_ne n nw hn]
  · intro p n err data he hcap
    exact h3 p n err data he (lt_of_le_of_lt (Int.ofNat_nonneg _) hcap) hcap

/-- A read that fails without delivering bytes: the run is that one read, and
`stream` returns its error. -/
theorem stream_ends_witness :
    (stream (recRead Script.Read) (recWrite Script.Write) 2
        (⟨[(0, some (GoError.other "connection reset by peer"), [])], []⟩, [])).2.2 =
      [] ++ Event.read (List.replicate copyBufSize 0) 0
        (some (GoError.other "connection reset by peer")) [] :: [] ∧
    (stream (recRead Script.Read) (recWrite Script.Write) 2
        (⟨[(0, some (GoError.other "connection reset by peer"), [])], []⟩, [])).1 =
      some (Outcome.ret (some (GoError.other "connection reset by peer"))) :=
  ⟨rfl, ((stream_ends Script.Read Script.Write 2
      ⟨[(0, some (GoError.other "connection reset by peer"), [])], []⟩ []
      (Event.read (List.replicate copyBufSize 0) 0
        (some (GoError.other "connection reset by peer")) []) [] rfl).2.1
      _ _ _ _ rfl (le_refl 0)).2⟩

/-- A read that fails while delivering three bytes, and a destination whose
write fails: `stream` writes once more after the failed read and returns the
error of the write, not that of the read. -/
theorem stream_read_error_then_write :
    (stream (recRead Script.Read) (recWrite Script.Write) 1
        (⟨[(3, some (GoError.other "connection reset by peer"), [1, 2, 3])],
          [(0, some (GoError.other "broken pipe"))]⟩, [])).1 =
      some (Outcome.ret (some (GoError.other "broken pipe"))) ∧
    (stream (recRead Script.Read) (recWrite Script.Write) 1
        (⟨[(3, some (GoError.other "connection reset by peer"), [1, 2, 3])],
          [(0, some (GoError.other "broken pipe"))]⟩, [])).2.2.drop 1 =
      [Event.write [1, 2, 3] 0 (some (GoError.other "broken pipe"))] := by
  decide

/-! ### What a run relays -/

/-- The bytes read over two records in a row. -/
theorem bytesRead_append (a b : List Event) : bytesRead (a ++ b) = bytesRead a ++ bytesRead b := by
  simp [bytesRead]

/-- The bytes written over two records in a row. -/
theorem bytesWritten_append (a b : List Event) :
    bytesWritten (a ++ b) = bytesWritten a ++ bytesWritten b := by
  simp [bytesWritten]

/-- The copy loop between a source that drains and a destination that accepts
everything: it returns `nil` and writes what it reads. -/
theorem copyLoop_relay {W : Type} (src : ReadFn W) (dst : WriteFn W) (μ : W → Nat)
    (hfit : ∀ p w, p.length = copyBufSize → (src p w).1.1 ≤ (p.length : Int))
    (heof : ∀ p w e, p.length = copyBufSize → (src p w).1.2.1 = some e → e = GoError.EOF)
    (hdrain : ∀ p w, p.length = copyBufSize → (src p w).1.2.1 = none → μ (src p w).2 < μ w)
    (hkeep : ∀ p w, μ (dst p w).2 ≤ μ w)
    (hfull : ∀ p w, (dst p w).1 = ((p.length : Int), none)) (fuel : Nat) :
    ∀ (buf : List Byte) (written : Int) (w : W) (log : List Event),
      buf.length = copyBufSize → μ w < fuel →
      strip (copyLoop (recRead src) (recWrite dst) fuel buf written (w, log)).1 =
          some (Outcome.ret none) ∧
        ∃ new, (copyLoop (recRead src) (recWrite dst) fuel buf written (w, log)).2.2 = log ++ new ∧
          bytesWritten new = bytesRead new := by
  induction fuel with
  | zero => intro buf written w log _ h; omega
  | succ fuel ih =>
    intro buf written w log hbuf hfuel
    have hfit' := hfit buf w hbuf
    have heof' := heof buf w
    have hdrain' := hdrain buf w hbuf
    rcases hr : src buf w with ⟨⟨nr, er, data⟩, w1⟩
    rw [hr] at hfit' heof' hdrain'
    simp only at hfit' heof' hdrain'
    have hrec : recRead src buf (w, log) =
        ((nr, er, data), (w1, log ++ [Event.read buf nr er data])) := by
      simp [recRead, hr]
    rw [copyLoop_turn]
    simp only [hrec]
    by_cases hpos : 0 < nr
    · have hcap : ¬ (copyBufSize : Int) < nr := by omega
      simp only [hpos, hcap, if_true, if_false]
      have hfull' := hfull (List.take nr.toNat (overwrite buf data)) w1
      have hkeep' := hkeep (List.take nr.toNat (overwrite buf data)) w1
      rcases hr2 : dst (List.take nr.toNat (overwrite buf data)) w1 with ⟨⟨nw, ew⟩, w2⟩
      rw [hr2] at hfull' hkeep'
      simp only [Prod.mk.injEq] at hfull' hkeep'
      obtain ⟨hnw, hew⟩ := hfull'
      have hlen : ((List.take nr.toNat (overwrite buf data)).length : Int) = nr := by
        rw [List.length_take, overwrite_length, hbuf]
        omega
      have hnw' : nw = nr := by rw [hnw, hlen]
      subst hew
      subst hnw'
      have hrec2 : recWrite dst (List.take nw.toNat (overwrite buf data))
          (w1, log ++ [Event.read buf nw er data]) =
          ((nw, none), (w2, log ++ [Event.read buf nw er data] ++
            [Event.write (List.take nw.toNat (overwrite buf data)) nw none])) := by
        simp [recWrite, hr2]
      simp only [hrec2, verdict_none_same nw (le_of_lt hpos)]
      have hbytes : bytesWritten [Event.read buf nw er data,
            Event.write (List.take nw.toNat (overwrite buf data)) nw none] =
          bytesRead [Event.read buf nw er data,
            Event.write (List.take nw.toNat (overwrite buf data)) nw none] := by
        simp [bytesWritten, bytesRead, Event.accepted, Event.chunk, hpos]
      cases er with
      | some e =>
        simp only
        have := heof' e hbuf rfl
        subst this
        exact ⟨by simp [strip], [Event.read buf nw (some GoError.EOF) data,
          Event.write (List.take nw.toNat (overwrite buf data)) nw none], by simp, hbytes⟩
      | none =>
        simp only
        have hμ : μ w2 < fuel := by have := hdrain' rfl; omega
        obtain ⟨h1, new, h2, h3⟩ := ih (overwrite buf data)
          (wrapInt64 (written + if decide (nw < 0 ∨ nw < nw) = true then 0 else nw)) w2
          (log ++ [Event.read buf nw none data] ++
            [Event.write (List.take nw.toNat (overwrite buf data)) nw none])
          (by rw [overwrite_length, hbuf]) hμ
        refine ⟨h1, [Event.read buf nw none data,
          Event.write (List.take nw.toNat (overwrite buf data)) nw none] ++ new, ?_, ?_⟩
        · rw [h2]; simp
        · rw [bytesWritten_append, bytesRead_append, hbytes, h3]
    · simp only [hpos, if_false]
      have hbytes : bytesWritten [Event.read buf nr er data] =
          bytesRead [Event.read buf nr er data] := by
        simp [bytesWritten, bytesRead, Event.accepted, Event.chunk, hpos]
      cases er with
      | some e =>
        simp only
        have := heof' e hbuf rfl
        subst this
        exact ⟨by simp [strip], [Event.read buf nr (some GoError.EOF) data], by simp, hbytes⟩
      | none =>
        simp only
        have hμ : μ w1 < fuel := by have := hdrain' rfl; omega
        obtain ⟨h1, new, h2, h3⟩ := ih (overwrite buf data) written w1
          (log ++ [Event.read buf nr none data]) (by rw [overwrite_length, hbuf]) hμ
        refine ⟨h1, [Event.read buf nr none data] ++ new, ?_, ?_⟩
        · rw [h2]; simp
        · rw [bytesWritten_append, bytesRead_append, hbytes, h3]

/-- What a callee stored at the front of a slice that is long enough is what
the caller finds there. -/
theorem take_overwrite (p data : List Byte) (h : data.length ≤ p.length) :
    (overwrite p data).take data.length = data := by
  induction p generalizing data with
  | nil => cases data <;> simp_all [overwrite]
  | cons b p ih =>
    cases data with
    | nil => simp
    | cons d data =>
      simp only [overwrite, List.length_cons, List.take_succ_cons, List.cons.injEq, true_and]
      exact ih data (by simpa using h)

/-- The copy loop between a source that hands out what it has left, front
first, until it signals `io.EOF` with nothing left, and a destination that
keeps all it is written: the destination ends up with what it had followed by
all the source had left. -/
theorem copyLoop_delivers {W : Type} (src : ReadFn W) (dst : WriteFn W) (μ : W → Nat)
    (hfit : ∀ p w, p.length = copyBufSize → (src p w).1.1 ≤ (p.length : Int))
    (heof : ∀ p w e, p.length = copyBufSize → (src p w).1.2.1 = some e → e = GoError.EOF)
    (hdrain : ∀ p w, p.length = copyBufSize → (src p w).1.2.1 = none → μ (src p w).2 < μ w)
    (hkeep : ∀ p w, μ (dst p w).2 ≤ μ w)
    (hfull : ∀ p w, (dst p w).1 = ((p.length : Int), none))
    (rest got : W → List Byte)
    (hr1 : ∀ p w, p.length = copyBufSize →
      rest w = Event.chunk (Event.read p (src p w).1.1 (src p w).1.2.1 (src p w).1.2.2) ++
        rest (src p w).2)
    (hr2 : ∀ p w, p.length = copyBufSize → (src p w).1.2.1 = some GoError.EOF →
      rest (src p w).2 = [])
    (hr3 : ∀ p w, got (src p w).2 = got w)
    (hw1 : ∀ p w, got (dst p w).2 = got w ++ p)
    (hw2 : ∀ p w, rest (dst p w).2 = rest w) (fuel : Nat) :
    ∀ (buf : List Byte) (written : Int) (w : W), buf.length = copyBufSize → μ w < fuel →
      got (copyLoop src dst fuel buf written w).2 = got w ++ rest w ∧
      rest (copyLoop src dst fuel buf written w).2 = [] := by
  induction fuel with
  | zero => intro buf written w _ h; omega
  | succ fuel ih =>
    intro buf written w hbuf hfuel
    have hfit' := hfit buf w hbuf
    have heof' := heof buf w
    have hdrain' := hdrain buf w hbuf
    have hr1' := hr1 buf w hbuf
    have hr2' := hr2 buf w hbuf
    have hr3' := hr3 buf w
    rw [copyLoop_turn]
    rcases hr : src buf w with ⟨⟨nr, er, data⟩, w1⟩
    rw [hr] at hfit' heof' hdrain' hr1' hr2' hr3'
    simp only at hfit' heof' hdrain' hr1' hr2' hr3'
    simp only [Event.chunk] at hr1'
    by_cases hpos : 0 < nr
    · have hcap : ¬ (copyBufSize : Int) < nr := by omega
      simp only [hpos, hcap, if_true, if_false] at hr1' ⊢
      have hfull' := hfull (List.take nr.toNat (overwrite buf data)) w1
      have hkeep' := hkeep (List.take nr.toNat (overwrite buf data)) w1
      have hw1' := hw1 (List.take nr.toNat (overwrite buf data)) w1
      have hw2' := hw2 (List.take nr.toNat (overwrite buf data)) w1
      rcases hr2e : dst (List.take nr.toNat (overwrite buf data)) w1 with ⟨⟨nw, ew⟩, w2⟩
      rw [hr2e] at hfull' hkeep' hw1' hw2'
      simp only [Prod.mk.injEq] at hfull' hkeep' hw1' hw2'
      obtain ⟨hnw, hew⟩ := hfull'
      have hlen : ((List.take nr.toNat (overwrite buf data)).length : Int) = nr := by
        rw [List.length_take, overwrite_length, hbuf]
        omega
      have hnw' : nw = nr := by rw [hnw, hlen]
      subst hew
      subst hnw'
      simp only [verdict_none_same nw (le_of_lt hpos)]
      cases er with
      | some e =>
        simp only
        have := heof' e hbuf rfl
        subst this
        have hnil := hr2' rfl
        refine ⟨?_, by rw [hw2', hnil]⟩
        rw [hw1', hr3', hr1', hnil]
        simp
      | none =>
        simp only
        have hμ : μ w2 < fuel := by have := hdrain' rfl; omega
        obtain ⟨h1, h2⟩ := ih (overwrite buf data)
          (wrapInt64 (written + if decide (nw < 0 ∨ nw < nw) = true then 0 else nw)) w2
          (by rw [overwrite_length, hbuf]) hμ
        refine ⟨?_, h2⟩
        rw [h1, hw1', hw2', hr3', hr1']
        simp
    · simp only [hpos, if_false] at hr1' ⊢
      cases er with
      | some e =>
        simp only
        have := heof' e hbuf rfl
        subst this
        have hnil := hr2' rfl
        refine ⟨?_, hnil⟩
        rw [hr3', hr1', hnil]
        simp
      | none =>
        simp only
        have hμ : μ w1 < fuel := by have := hdrain' rfl; omega
        obtain ⟨h1, h2⟩ := ih (overwrite buf data) written w1
          (by rw [overwrite_length, hbuf]) hμ
        refine ⟨?_, h2⟩
        rw [h1, hr3', hr1']
        simp

/-- A read from a wire hands out the front of what is pending. -/
theorem Wire.read_front (p : List Byte) (s : Wire) :
    s.pending.flatten =
      Event.chunk (Event.read p (Wire.Read p s).1.1 (Wire.Read p s).1.2.1 (Wire.Read p s).1.2.2) ++
        (Wire.Read p s).2.pending.flatten := by
  rcases s with ⟨pending, received⟩
  cases pending with
  | nil => simp [Wire.Read, Event.chunk]
  | cons c rest =>
    by_cases hc : c.length ≤ p.length
    · by_cases h0 : c = []
      · subst h0; simp [Wire.Read, Event.chunk]
      · have hpos : 0 < c.length := List.length_pos.mpr h0
        simp [Wire.Read, Event.chunk, hc, hpos, take_overwrite p c hc]
    · have hlt : p.length < c.length := not_le.mp hc
      have hlen : (List.take p.length c).length = p.length := by
        rw [List.length_take]; omega
      have hk := take_overwrite p (List.take p.length c) (by rw [hlen])
      rw [hlen] at hk
      by_cases h0 : p.length = 0
      · have hp : p = [] := List.length_eq_zero.mp h0
        subst hp
        have hne : c ≠ [] := by
          intro hce; subst hce; simp at hlt
        simp [Wire.Read, Event.chunk, hne]
      · have hpos : 0 < p.length := Nat.pos_of_ne_zero h0
        simp [Wire.Read, Event.chunk, hc, hpos, hk]
        rw [← List.append_assoc, List.take_append_drop]

/-- A wire signals `io.EOF` only when nothing is pending. -/
theorem Wire.read_eof_empty (p : List Byte) (s : Wire)
    (h : (Wire.Read p s).1.2.1 = some GoError.EOF) : (Wire.Read p s).2.pending.flatten = [] := by
  rcases s with ⟨pending, received⟩
  cases pending with
  | nil => simp [Wire.Read]
  | cons c rest =>
    by_cases hc : c.length ≤ p.length <;> simp [Wire.Read, hc] at h

/-- A read from a wire leaves what was received alone. -/
theorem Wire.read_received (p : List Byte) (s : Wire) :
    (Wire.Read p s).2.received = s.received := by
  rcases s with ⟨pending, received⟩
  cases pending with
  | nil => simp [Wire.Read]
  | cons c rest =>
    by_cases hc : c.length ≤ p.length <;> simp [Wire.Read, hc]

/-- C3. For a source whose reads respect the size of the buffer, return no
error but `io.EOF` and signal it after finitely many reads (the measure `μ`
drops with every read that returns no error and no write raises it), and a
destination that accepts every write in full and without error: with enough
fuel `stream` returns `nil`; the run read until the source signalled `io.EOF`
(its record holds a read that returned `io.EOF`, with no failed read before it
and no read after it); and the bytes its writes handed to the destination are
exactly the bytes its reads delivered, in the same order.  Moreover, whenever
the source hands out what it has left (`rest`), front first, and signals
`io.EOF` only with nothing left, and the destination keeps what it is written
(`got`), the destination ends up with what it had followed by everything the
source had left, and the source with nothing. -/
theorem stream_relays_bytes {W : Type} (src : ReadFn W) (dst : WriteFn W) (μ : W → Nat)
    (hfit : ∀ p w, p.length = copyBufSize → (src p w).1.1 ≤ (p.length : Int))
    (heof : ∀ p w e, p.length = copyBufSize → (src p w).1.2.1 = some e → e = GoError.EOF)
    (hdrain : ∀ p w, p.length = copyBufSize → (src p w).1.2.1 = none → μ (src p w).2 < μ w)
    (hkeep : ∀ p w, μ (dst p w).2 ≤ μ w)
    (hfull : ∀ p w, (dst p w).1 = ((p.length : Int), none))
    (w : W) (fuel : Nat) (hfuel : μ w < fuel) :
    (stream src dst fuel w).1 = some (Outcome.ret none) ∧
    (stream (recRead src) (recWrite dst) fuel (w, [])).1 = some (Outcome.ret none) ∧
    (∃ pre p n data post,
      (stream (recRead src) (recWrite dst) fuel (w, [])).2.2 =
        pre ++ Event.read p n (some GoError.EOF) data :: post ∧
      (∀ p' n' e' d', Event.read p' n' e' d' ∈ pre → e' = none) ∧
      (∀ p' n' e' d', Event.read p' n' e' d' ∉ post)) ∧
    bytesWritten (stream (recRead src) (recWrite dst) fuel (w, [])).2.2 =
      bytesRead (stream (recRead src) (recWrite dst) fuel (w, [])).2.2 ∧
    (∀ rest got : W → List Byte,
      (∀ p w, p.length = copyBufSize →
        rest w = Event.chunk (Event.read p (src p w).1.1 (src p w).1.2.1 (src p w).1.2.2) ++
          rest (src p w).2) →
      (∀ p w, p.length = copyBufSize → (src p w).1.2.1 = some GoError.EOF →
        rest (src p w).2 = []) →
      (∀ p w, got (src p w).2 = got w) →
      (∀ p w, got (dst p w).2 = got w ++ p) →
      (∀ p w, rest (dst p w).2 = rest w) →
      got (stream src dst fuel w).2 = got w ++ rest w ∧ rest (stream src dst fuel w).2 = []) := by
  obtain ⟨h1, new, h2, h3⟩ := copyLoop_relay src dst μ hfit heof hdrain hkeep hfull fuel
    (List.replicate copyBufSize 0) 0 w [] (List.length_replicate _ _) hfuel
  have hrec : (stream (recRead src) (recWrite dst) fuel (w, [])).1 = some (Outcome.ret none) := by
    rw [stream_eq]; exact h1
  refine ⟨?_, hrec, trace_nil_eof (stream_trace src dst fuel w) hrec, ?_, ?_⟩
  · rw [← (stream_rec src dst fuel w).1]; exact hrec
  · rw [stream_eq]
    simp only
    rw [h2]
    simpa using h3
  · intro rest got hr1 hr2 hr3 hw1 hw2
    have := copyLoop_delivers src dst μ hfit heof hdrain hkeep hfull rest got hr1 hr2 hr3 hw1 hw2
      fuel (List.replicate copyBufSize 0) 0 w (List.length_replicate _ _) hfuel
    rw [stream_eq]
    exact this

/-- A read from a wire never returns more than the buffer holds. -/
theorem Wire.read_fit (p : List Byte) (s : Wire) : (Wire.Read p s).1.1 ≤ (p.length : Int) := by
  unfold Wire.Read
  split
  · simp
  · split
    · simp; omega
    · simp

/-- The only error of a read from a wire is `io.EOF`. -/
theorem Wire.read_eof (p : List Byte) (s : Wire) (e : GoError)
    (h : (Wire.Read p s).1.2.1 = some e) : e = GoError.EOF := by
  unfold Wire.Read at h
  split at h
  · simpa using h.symm
  · split at h <;> simp at h

/-- A read from a wire that returns no error leaves less pending. -/
theorem Wire.read_drain (p : List Byte) (s : Wire) (hp : p.length = copyBufSize)
    (h : (Wire.Read p s).1.2.1 = none) : Wire.size (Wire.Read p s).2 < Wire.size s := by
  have hpos : 0 < p.length := by rw [hp]; decide
  rcases s with ⟨pending, received⟩
  cases pending with
  | nil => simp [Wire.Read] at h
  | cons c rest =>
    by_cases hc : c.length ≤ p.length
    · simp [Wire.Read, Wire.size, hc]
    · simp [Wire.Read, Wire.size, hc]
      omega

/-- Two chunks on a wire, relayed to a writing end that takes everything: the
writing end has received the three bytes and nothing is left pending. -/
theorem stream_relays_bytes_witness :
    Wire.size ⟨[[1, 2], [3]], []⟩ < 6 ∧
    (stream Wire.Read Wire.WriteAll 6 ⟨[[1, 2], [3]], []⟩).1 = some (Outcome.ret none) ∧
    (stream Wire.Read Wire.WriteAll 6 ⟨[[1, 2], [3]], []⟩).2.received = [1, 2, 3] ∧
    (stream Wire.Read Wire.WriteAll 6 ⟨[[1, 2], [3]], []⟩).2.pending.flatten = [] :=
  ⟨by decide,
   (stream_relays_bytes Wire.Read Wire.WriteAll Wire.size
     (fun p w _ => Wire.read_fit p w) (fun p w e _ h => Wire.read_eof p w e h)
     Wire.read_drain (fun _ _ => le_refl _) (fun _ _ => rfl) ⟨[[1, 2], [3]], []⟩ 6
     (by decide)).1,
   ((stream_relays_bytes Wire.Read Wire.WriteAll Wire.size
     (fun p w _ => Wire.read_fit p w) (fun p w e _ h => Wire.read_eof p w e h)
     Wire.read_drain (fun _ _ => le_refl _) (fun _ _ => rfl) ⟨[[1, 2], [3]], []⟩ 6
     (by decide)).2.2.2.2 (fun s => s.pending.flatten) (fun s => s.received)
     (fun p s _ => Wire.read_front p s) (fun p s _ h => Wire.read_eof_empty p s h)
     Wire.read_received (fun _ _ => rfl) (fun _ _ => rfl)).1,
   ((stream_relays_bytes Wire.Read Wire.WriteAll Wire.size
     (fun p w _ => Wire.read_fit p w) (fun p w e _ h => Wire.read_eof p w e h)
     Wire.read_drain (fun _ _ => le_refl _) (fun _ _ => rfl) ⟨[[1, 2], [3]], []⟩ 6
     (by decide)).2.2.2.2 (fun s => s.pending.flatten) (fun s => s.received)
     (fun p s _ => Wire.read_front p s) (fun p s _ h => Wire.read_eof_empty p s h)
     Wire.read_received (fun _ _ => rfl) (fun _ _ => rfl)).2⟩

/-! ### What the write-observer sees -/

/-- The observed counts over two records in a row. -/
theorem observedWrites_append (a b : List Event) :
    observedWrites (a ++ b) = observedWrites a ++ observedWrites b := by
  induction a with
  | nil => rfl
  | cons e a ih => cases e <;> simp [observedWrites, ih]

/-- The counts of the error-free writes over two records in a row. -/
theorem cleanWriteCounts_append (a b : List Event) :
    cleanWriteCounts (a ++ b) = cleanWriteCounts a ++ cleanWriteCounts b := by
  induction a with
  | nil => rfl
  | cons e a ih =>
    cases e with
    | write p n err => cases err <;> simp [cleanWriteCounts, ih]
    | _ => simp [cleanWriteCounts, ih]

/-- The `Write` of a recorded wrapper, in one equation. -/
theorem recNotifier_Write {W : Type} (now : Clock W) (rw : ReadWriter W)
    (f g : Option (Observer W)) (p : List Byte) (w : W) (log : List Event) :
    (recNotifier rw f g).Write (recClock now) p (w, log) =
      match (rw.Write p (now w).2).1.2, f with
      | none, some f =>
        ((rw.Write p (now w).2).1,
          (f (rw.Write p (now w).2).1.1 ((now (rw.Write p (now w).2).2).1.Sub (now w).1)
              (now (rw.Write p (now w).2).2).2,
           log ++ [Event.write p (rw.Write p (now w).2).1.1 none,
             Event.onWrite (rw.Write p (now w).2).1.1
               ((now (rw.Write p (now w).2).2).1.Sub (now w).1)]))
      | _, _ =>
        ((rw.Write p (now w).2).1,
          ((rw.Write p (now w).2).2,
           log ++ [Event.write p (rw.Write p (now w).2).1.1 (rw.Write p (now w).2).1.2])) := by
  simp only [ReadWriteNotifier.Write, recNotifier, recRW, recWrite, recClock]
  cases h : (rw.Write p (now w).2).1.2 <;> cases f <;> simp [h, recOnWrite, Prod.ext_iff]

/-- The `Read` of a recorded wrapper, in one equation. -/
theorem recNotifier_Read {W : Type} (now : Clock W) (rw : ReadWriter W)
    (f g : Option (Observer W)) (p : List Byte) (w : W) (log : List Event) :
    (recNotifier rw f g).Read (recClock now) p (w, log) =
      match (rw.Read p (now w).2).1.2.1, g with
      | none, some g =>
        ((rw.Read p (now w).2).1,
          (g (rw.Read p (now w).2).1.1 ((now (rw.Read p (now w).2).2).1.Sub (now w).1)
              (now (rw.Read p (now w).2).2).2,
           log ++ [Event.read p (rw.Read p (now w).2).1.1 none (rw.Read p (now w).2).1.2.2,
             Event.onRead (rw.Read p (now w).2).1.1
               ((now (rw.Read p (now w).2).2).1.Sub (now w).1)]))
      | _, _ =>
        ((rw.Read p (now w).2).1,
          ((rw.Read p (now w).2).2,
           log ++ [Event.read p (rw.Read p (now w).2).1.1 (rw.Read p (now w).2).1.2.1
             (rw.Read p (now w).2).1.2.2])) := by
  simp only [ReadWriteNotifier.Read, recNotifier, recRW, recRead, recClock]
  cases h : (rw.Read p (now w).2).1.2.1 <;> cases g <;> simp [h, recOnRead, Prod.ext_iff]

/-- What every read and every write preserve, the copy loop preserves. -/
theorem copyLoop_inv {W : Type} (I : W → Prop) (src : ReadFn W) (dst : WriteFn W)
    (hs : ∀ p w, I w → I (src p w).2) (hd : ∀ p w, I w → I (dst p w).2) (fuel : Nat) :
    ∀ (buf : List Byte) (written : Int) (w : W), I w →
      I (copyLoop src dst fuel buf written w).2 := by
  induction fuel with
  | zero => intro buf written w h; simpa [copyLoop] using h
  | succ fuel ih =>
    intro buf written w h
    rw [copyLoop_turn]
    have h1 := hs buf w h
    have h2 := hd ((overwrite buf (src buf w).1.2.2).take (src buf w).1.1.toNat) _ h1
    split
    · split
      · exact h1
      · split
        · exact h2
        · split
          · exact h2
          · exact ih _ _ _ h2
    · split
      · exact h1
      · exact ih _ _ _ h1

/-- Through the copy loop the write-observer has seen exactly the counts of the
error-free writes. -/
theorem observed_invariant {W : Type} (now : Clock W) (src : ReadFn W) (rw : ReadWriter W)
    (f : Observer W) (g : Option (Observer W)) (fuel : Nat) (buf : List Byte) (written : Int)
    (s : Rec W) (h : observedWrites s.2 = cleanWriteCounts s.2) :
    observedWrites (copyLoop (liftRead src) ((recNotifier rw (some f) g).Write (recClock now))
        fuel buf written s).2.2 =
      cleanWriteCounts (copyLoop (liftRead src)
        ((recNotifier rw (some f) g).Write (recClock now)) fuel buf written s).2.2 := by
  refine copyLoop_inv (fun s : Rec W => observedWrites s.2 = cleanWriteCounts s.2) _ _ ?_ ?_
    fuel buf written s h
  · intro p s hs
    simpa [liftRead] using hs
  · intro p s hs
    rcases s with ⟨w, log⟩
    rw [recNotifier_Write]
    cases herr : (rw.Write p (now w).2).1.2 with
    | none =>
      simp only [observedWrites_append, cleanWriteCounts_append, observedWrites,
        cleanWriteCounts]
      simpa using hs
    | some e =>
      simp only [observedWrites_append, cleanWriteCounts_append, observedWrites,
        cleanWriteCounts, herr]
      simpa using hs

/-- C4, amended. Over a whole run of `stream` into a wrapper with a
write-observer, the byte counts passed to the write-observer are, in order,
the counts of the underlying `Write` calls that returned no error; so their
sums are equal. -/
theorem observed_sum_eq_clean_writes {W : Type} (now : Clock W) (src : ReadFn W)
    (rw : ReadWriter W) (f : Observer W) (g : Option (Observer W)) (fuel : Nat) (w : W) :
    observedWrites (stream (liftRead src) ((recNotifier rw (some f) g).Write (recClock now))
        fuel (w, [])).2.2 =
      cleanWriteCounts (stream (liftRead src)
        ((recNotifier rw (some f) g).Write (recClock now)) fuel (w, [])).2.2 ∧
    (observedWrites (stream (liftRead src) ((recNotifier rw (some f) g).Write (recClock now))
        fuel (w, [])).2.2).sum =
      (cleanWriteCounts (stream (liftRead src)
        ((recNotifier rw (some f) g).Write (recClock now)) fuel (w, [])).2.2).sum := by
  have h := observed_invariant now src rw f g fuel (List.replicate copyBufSize 0) 0 (w, []) rfl
  rw [stream_eq]
  exact ⟨h, by rw [h]⟩

/-- A write that takes two of three bytes and returns an error: the
write-observer sees nothing, the destination took two bytes. -/
theorem observed_sum_misses_failed_write :
    (observedWrites (stream (liftRead Script.Read)
        ((recNotifier Script.rw (some fun _ _ s => s) none).Write (recClock stillClock)) 1
        (⟨[(3, none, [1, 2, 3])], [(2, some (GoError.other "broken pipe"))]⟩, [])).2.2).sum = 0 ∧
    (writeCounts (stream (liftRead Script.Read)
        ((recNotifier Script.rw (some fun _ _ s => s) none).Write (recClock stillClock)) 1
        (⟨[(3, none, [1, 2, 3])], [(2, some (GoError.other "broken pipe"))]⟩, [])).2.2).sum = 2 := by
  decide

/-! ### One direction of a session on a wire -/

/-- The client-facing wrapper reading a pending chunk that fits the buffer. -/
theorem relaySource_chunk (m : Nat) (now : Clock (Wire × Sink)) (hnow : ∀ w, (now w).2 = w)
    (p c : List Byte) (rest : List (List Byte)) (rcv : List Byte) (sink : Sink)
    (log : List Event) (hc : c.length ≤ p.length) :
    relaySource m now p ((⟨c :: rest, rcv⟩, sink), log) =
      (((c.length : Int), none, c),
        ((⟨rest, rcv⟩, sink),
          log ++ [Event.read p c.length none c,
            Event.onRead c.length
              ((now (⟨rest, rcv⟩, sink)).1.Sub (now (⟨c :: rest, rcv⟩, sink)).1)])) := by
  unfold relaySource recorded
  rw [recNotifier_Read]
  simp [clientNotifier, onConn, onSink, clientOnRead, Wire.rw, Wire.Read, hnow, hc]

/-- The client-facing wrapper reading a pending chunk longer than the buffer. -/
theorem relaySource_long (m : Nat) (now : Clock (Wire × Sink)) (hnow : ∀ w, (now w).2 = w)
    (p c : List Byte) (rest : List (List Byte)) (rcv : List Byte) (sink : Sink)
    (log : List Event) (hc : p.length < c.length) :
    relaySource m now p ((⟨c :: rest, rcv⟩, sink), log) =
      (((p.length : Int), none, c.take p.length),
        ((⟨c.drop p.length :: rest, rcv⟩, sink),
          log ++ [Event.read p p.length none (c.take p.length),
            Event.onRead p.length
              ((now (⟨c.drop p.length :: rest, rcv⟩, sink)).1.Sub
                (now (⟨c :: rest, rcv⟩, sink)).1)])) := by
  unfold relaySource recorded
  rw [recNotifier_Read]
  simp [clientNotifier, onConn, onSink, clientOnRead, Wire.rw, Wire.Read, hnow, not_le.mpr hc]

/-- The client-facing wrapper reading from a wire with nothing pending. -/
theorem relaySource_eof (m : Nat) (now : Clock (Wire × Sink)) (hnow : ∀ w, (now w).2 = w)
    (p : List Byte) (rcv : List Byte) (sink : Sink) (log : List Event) :
    relaySource m now p ((⟨[], rcv⟩, sink), log) =
      (((0 : Int), some GoError.EOF, []),
        ((⟨[], rcv⟩, sink), log ++ [Event.read p 0 (some GoError.EOF) []])) := by
  unfold relaySource recorded
  rw [recNotifier_Read]
  simp [clientNotifier, onConn, Wire.rw, Wire.Read, hnow]

/-- The upstream-facing wrapper writing to an end that takes `m` bytes per call. -/
theorem relayDest_write (m : Nat) (now : Clock (Wire × Sink)) (hnow : ∀ w, (now w).2 = w)
    (p : List Byte) (wire : Wire) (sink : Sink) (log : List Event) :
    relayDest m now p ((wire, sink), log) =
      ((((min p.length m : Nat) : Int), none),
        (({ wire with received := wire.received ++ p.take m },
          targetOnWrite ((min p.length m : Nat) : Int)
            ((now ({ wire with received := wire.received ++ p.take m }, sink)).1.Sub
              (now (wire, sink)).1) sink),
          log ++ [Event.write p ((min p.length m : Nat) : Int) none,
            Event.onWrite ((min p.length m : Nat) : Int)
              ((now ({ wire with received := wire.received ++ p.take m }, sink)).1.Sub
                (now (wire, sink)).1)])) := by
  unfold relayDest recorded
  rw [recNotifier_Write]
  simp [targetNotifier, onConn, onSink, Wire.rw, Wire.Write, hnow]

/-- Chunks of `m` bytes each pass one by one, the write-observer seeing `m` for
each. -/
theorem relay_chunks (m : Nat) (now : Clock (Wire × Sink)) (hnow : ∀ w, (now w).2 = w)
    (hm : 0 < m) (hcap : m ≤ copyBufSize) :
    ∀ (chunks : List (List Byte)), (∀ c ∈ chunks, c.length = m) →
    ∀ (fuel : Nat) (buf : List Byte) (written : Int) (rcv : List Byte) (sink : Sink)
      (log : List Event), buf.length = copyBufSize → chunks.length < fuel →
      strip (copyLoop (relaySource m now) (relayDest m now) fuel buf written
          ((⟨chunks, rcv⟩, sink), log)).1 = some (Outcome.ret none) ∧
      observedWrites (copyLoop (relaySource m now) (relayDest m now) fuel buf written
          ((⟨chunks, rcv⟩, sink), log)).2.2 =
        observedWrites log ++ List.replicate chunks.length (m : Int) := by
  intro chunks
  induction chunks with
  | nil =>
    intro _ fuel buf written rcv sink log hbuf hfuel
    obtain ⟨fuel, rfl⟩ : ∃ k, fuel = k + 1 := ⟨fuel - 1, by simp at hfuel; omega⟩
    rw [copyLoop_turn, relaySource_eof m now hnow]
    simp [strip, observedWrites_append, observedWrites]
  | cons c rest ih =>
    intro hall fuel buf written rcv sink log hbuf hfuel
    obtain ⟨fuel, rfl⟩ : ∃ k, fuel = k + 1 := ⟨fuel - 1, by simp at hfuel; omega⟩
    have hc : c.length = m := hall c (by simp)
    have hfit : c.length ≤ buf.length := by omega
    have hpos : (0 : Int) < (c.length : Int) := by omega
    have hnc : ¬ (copyBufSize : Int) < (c.length : Int) := by omega
    have hlen : (List.take c.length (overwrite buf c)).length = m := by
      rw [List.length_take, overwrite_length]; omega
    rw [copyLoop_turn, relaySource_chunk m now hnow buf c rest rcv sink log hfit]
    simp only [hpos, hnc, if_true, if_false, Int.toNat_ofNat]
    simp only [relayDest_write m now hnow, hlen, min_self]
    have hrest : ∀ c ∈ rest, c.length = m := fun c h => hall c (by simp [h])
    have key := fun written rcv sink log =>
      ih hrest fuel (overwrite buf c) written rcv sink log
        (by rw [overwrite_length, hbuf]) (by simp at hfuel; omega)
    subst hc
    simp only [verdict_none_same _ (le_of_lt hpos)]
    refine ⟨(key _ _ _ _).1, ?_⟩
    rw [(key _ _ _ _).2]
    simp [observedWrites_append, observedWrites, List.replicate_succ]

/-- A chunk of more than `m` bytes ends the copy loop with a short write after
one observer call. -/
theorem relay_burst_short (m : Nat) (now : Clock (Wire × Sink)) (hnow : ∀ w, (now w).2 = w)
    (burst : List Byte) (rest : List (List Byte)) (hm : m < burst.length)
    (hcap : m < copyBufSize) (fuel : Nat) (buf : List Byte) (written : Int) (rcv : List Byte)
    (sink : Sink) (log : List Event) (hbuf : buf.length = copyBufSize) :
    strip (copyLoop (relaySource m now) (relayDest m now) (fuel + 1) buf written
        ((⟨burst :: rest, rcv⟩, sink), log)).1 = some (Outcome.ret (some GoError.ErrShortWrite)) ∧
    observedWrites (copyLoop (relaySource m now) (relayDest m now) (fuel + 1) buf written
        ((⟨burst :: rest, rcv⟩, sink), log)).2.2 = observedWrites log ++ [(m : Int)] := by
  by_cases hfit : burst.length ≤ buf.length
  · have hpos : (0 : Int) < (burst.length : Int) := by omega
    have hnc : ¬ (copyBufSize : Int) < (burst.length : Int) := by omega
    have hlen : (List.take burst.length (overwrite buf burst)).length = burst.length := by
      rw [List.length_take, overwrite_length]; omega
    have hmin : min burst.length m = m := by omega
    have hne : (m : Int) ≠ (burst.length : Int) := by omega
    have hok : ¬ ((m : Int) < 0 ∨ (burst.length : Int) < (m : Int)) := by omega
    rw [copyLoop_turn, relaySource_chunk m now hnow buf burst rest rcv sink log hfit]
    simp only [hpos, hnc, if_true, if_false, Int.toNat_ofNat]
    simp only [relayDest_write m now hnow, hlen, hmin, verdict_none_ne _ _ hne, hok, if_false]
    simp [strip, observedWrites_append, observedWrites]
  · have hpos : (0 : Int) < (buf.length : Int) := by omega
    have hnc : ¬ (copyBufSize : Int) < (buf.length : Int) := by omega
    have hlen : (List.take buf.length (overwrite buf (List.take buf.length burst))).length =
        buf.length := by
      rw [List.length_take, overwrite_length]; omega
    have hmin : min buf.length m = m := by omega
    have hne : (m : Int) ≠ (buf.length : Int) := by omega
    have hok : ¬ ((m : Int) < 0 ∨ (buf.length : Int) < (m : Int)) := by omega
    rw [copyLoop_turn, relaySource_long m now hnow buf burst rest rcv sink log (not_le.mp hfit)]
    simp only [hpos, hnc, if_true, if_false, Int.toNat_ofNat]
    simp only [relayDest_write m now hnow, hlen, hmin, verdict_none_ne _ _ hne, hok, if_false]
    simp [strip, observedWrites_append, observedWrites]

/-- A burst of more than `m` bytes ends `stream` with a short write after one
observer call. -/
theorem relay_burst_stream (m : Nat) (now : Clock (Wire × Sink))
    (hnow : ∀ w, (now w).2 = w) (burst : List Byte) (sink : Sink) (fuel : Nat)
    (hm : m < burst.length) (hcap : m < copyBufSize) (hfuel : 0 < fuel) :
    (stream (relaySource m now) (relayDest m now) fuel ((⟨[burst], []⟩, sink), [])).1 =
      some (Outcome.ret (some GoError.ErrShortWrite)) ∧
    observedWrites
        (stream (relaySource m now) (relayDest m now) fuel ((⟨[burst], []⟩, sink), [])).2.2 =
      [(m : Int)] := by
  obtain ⟨fuel, rfl⟩ : ∃ k, fuel = k + 1 := ⟨fuel - 1, by omega⟩
  obtain ⟨h1, h2⟩ := relay_burst_short m now hnow burst [] hm hcap fuel
    (List.replicate copyBufSize 0) 0 [] sink [] (List.length_replicate _ _)
  rw [stream_eq]
  exact ⟨h1, by simpa [observedWrites] using h2⟩

/-- C5, amended. One direction of a session of `main` on a wire whose writing
end takes at most `m` bytes per call.  When the reads deliver the burst as
chunks of `m` bytes each (`0 < m ≤ 32768`), the run ends cleanly and the
write-observer of the destination wrapper fires once per chunk, each time with
`n = m`, the counts summing to the number of chunks times `m`.  When one read
delivers more than `m` bytes, the write-observer fires exactly once, with
`n = m`, and `stream` returns `io.ErrShortWrite`: a short write is not
retried. -/
theorem limited_destination (m : Nat) (now : Clock (Wire × Sink))
    (hnow : ∀ w, (now w).2 = w) (sink : Sink) (fuel : Nat) :
    (∀ chunks : List (List Byte), 0 < m → m ≤ copyBufSize →
      (∀ c ∈ chunks, c.length = m) → chunks.length < fuel →
      (stream (relaySource m now) (relayDest m now) fuel ((⟨chunks, []⟩, sink), [])).1 =
        some (Outcome.ret none) ∧
      observedWrites
          (stream (relaySource m now) (relayDest m now) fuel ((⟨chunks, []⟩, sink), [])).2.2 =
        List.replicate chunks.length (m : Int) ∧
      (observedWrites
          (stream (relaySource m now) (relayDest m now) fuel
            ((⟨chunks, []⟩, sink), [])).2.2).sum = chunks.length * m) ∧
    (∀ burst : List Byte, m < burst.length → m < copyBufSize → 0 < fuel →
      (stream (relaySource m now) (relayDest m now) fuel ((⟨[burst], []⟩, sink), [])).1 =
        some (Outcome.ret (some GoError.ErrShortWrite)) ∧
      observedWrites
          (stream (relaySource m now) (relayDest m now) fuel ((⟨[burst], []⟩, sink), [])).2.2 =
        [(m : Int)]) := by
  constructor
  · intro chunks hm hcap hall hfuel
    obtain ⟨h1, h2⟩ := relay_chunks m now hnow hm hcap chunks hall fuel
      (List.replicate copyBufSize 0) 0 [] sink [] (List.length_replicate _ _) hfuel
    rw [stream_eq]
    refine ⟨h1, ?_, ?_⟩
    · simpa [observedWrites] using h2
    · simp only [h2]
      simp [observedWrites]
  · intro burst hm hcap hfuel
    exact relay_burst_stream m now hnow burst sink fuel hm hcap hfuel

/-- Six bytes to a writing end that takes two per call: three observer calls
when they arrive in three reads, one when they arrive in one. -/
theorem limited_destination_witness :
    observedWrites
        (stream (relaySource 2 stillClock) (relayDest 2 stillClock) 4
          ((⟨[[1, 2], [3, 4], [5, 6]], []⟩, []), [])).2.2 = [2, 2, 2] ∧
    observedWrites
        (stream (relaySource 2 stillClock) (relayDest 2 stillClock) 4
          ((⟨[[1, 2, 3, 4, 5, 6]], []⟩, []), [])).2.2 = [2] :=
  ⟨((limited_destination 2 stillClock (fun _ => rfl) [] 4).1 [[1, 2], [3, 4], [5, 6]]
      (by decide) (by decide) (by decide) (by decide)).2.1,
   ((limited_destination 2 stillClock (fun _ => rfl) [] 4).2 [1, 2, 3, 4, 5, 6]
      (by decide) (by decide) (by decide)).2⟩

/-- A burst of 10,000 bytes delivered by one read, to a writing end that takes
100 bytes per call: `stream` returns `io.ErrShortWrite` and the write-observer
has fired once, with 100. -/
theorem burst_observed_once :
    (stream (relaySource 100 stillClock) (relayDest 100 stillClock) 1000
        ((⟨[List.replicate 10000 0], []⟩, []), [])).1 =
      some (Outcome.ret (some GoError.ErrShortWrite)) ∧
    observedWrites
        (stream (relaySource 100 stillClock) (relayDest 100 stillClock) 1000
          ((⟨[List.replicate 10000 0], []⟩, []), [])).2.2 = [((100 : Nat) : Int)] :=
  relay_burst_stream 100 stillClock (fun _ => rfl) (List.replicate 10000 0) [] 1000
    (by rw [List.length_replicate]; decide) (by decide) (by decide)

/-! ### The observers of `main` -/

/-- C8, amended. For either wrapper `main` installs: a write that returned no
error adds to the sink exactly one `Add` of the write's byte count on
`request.bytes`, one `Record` on `request.latency` and one log line, the
metric events carrying no labels; a write that returned an error adds nothing.
A read, completed or not, adds nothing to the sink. -/
theorem installed_observers {C : Type} (clientConn targetConn : ReadWriter C)
    (now : Clock (C × Sink)) (p : List Byte) (w : C × Sink) :
    ((((onConn clientConn).Write p (now w).2).1.2 = none →
        ∃ d v, ((clientNotifier clientConn).Write now p w).2.2 =
          (now ((onConn clientConn).Write p (now w).2).2).2.2 ++
            [SinkEvent.add "request.bytes" ((onConn clientConn).Write p (now w).2).1.1 [],
             SinkEvent.record "request.latency" v [],
             SinkEvent.printf ((onConn clientConn).Write p (now w).2).1.1 d]) ∧
      (((onConn clientConn).Write p (now w).2).1.2 ≠ none →
        ((clientNotifier clientConn).Write now p w).2 =
          ((onConn clientConn).Write p (now w).2).2)) ∧
    ((((onConn targetConn).Write p (now w).2).1.2 = none →
        ∃ d v, ((targetNotifier targetConn).Write now p w).2.2 =
          (now ((onConn targetConn).Write p (now w).2).2).2.2 ++
            [SinkEvent.add "request.bytes" ((onConn targetConn).Write p (now w).2).1.1 [],
             SinkEvent.record "request.latency" v [],
             SinkEvent.printf ((onConn targetConn).Write p (now w).2).1.1 d]) ∧
      (((onConn targetConn).Write p (now w).2).1.2 ≠ none →
        ((targetNotifier targetConn).Write now p w).2 =
          ((onConn targetConn).Write p (now w).2).2)) ∧
    ((((onConn clientConn).Read p (now w).2).1.2.1 = none →
        ((clientNotifier clientConn).Read now p w).2 =
          (now ((onConn clientConn).Read p (now w).2).2).2) ∧
      (((onConn clientConn).Read p (now w).2).1.2.1 ≠ none →
        ((clientNotifier clientConn).Read now p w).2 =
          ((onConn clientConn).Read p (now w).2).2)) ∧
    ((((onConn targetConn).Read p (now w).2).1.2.1 = none →
        ((targetNotifier targetConn).Read now p w).2 =
          (now ((onConn targetConn).Read p (now w).2).2).2) ∧
      (((onConn targetConn).Read p (now w).2).1.2.1 ≠ none →
        ((targetNotifier targetConn).Read now p w).2 =
          ((onConn targetConn).Read p (now w).2).2)) := by
  refine ⟨⟨?_, ?_⟩, ⟨?_, ?_⟩, ⟨?_, ?_⟩, ⟨?_, ?_⟩⟩
  · intro h
    refine ⟨(now ((onConn clientConn).Write p (now w).2).2).1.Sub (now w).1,
      ((now ((onConn clientConn).Write p (now w).2).2).1.Sub (now w).1).Milliseconds, ?_⟩
    simp only [ReadWriteNotifier.Write, clientNotifier]
    rw [h]
    rfl
  · intro h
    simp only [ReadWriteNotifier.Write, clientNotifier]
    cases h' : ((onConn clientConn).Write p (now w).2).1.2 with
    | none => exact absurd h' h
    | some e => rfl
  · intro h
    refine ⟨(now ((onConn targetConn).Write p (now w).2).2).1.Sub (now w).1,
      ((now ((onConn targetConn).Write p (now w).2).2).1.Sub (now w).1).Microseconds, ?_⟩
    simp only [ReadWriteNotifier.Write, targetNotifier]
    rw [h]
    rfl
  · intro h
    simp only [ReadWriteNotifier.Write, targetNotifier]
    cases h' : ((onConn targetConn).Write p (now w).2).1.2 with
    | none => exact absurd h' h
    | some e => rfl
  · intro h
    simp only [ReadWriteNotifier.Read, clientNotifier]
    rw [h]
    rfl
  · intro h
    simp only [ReadWriteNotifier.Read, clientNotifier]
    cases h' : ((onConn clientConn).Read p (now w).2).1.2.1 with
    | none => exact absurd h' h
    | some e => rfl
  · intro h
    simp only [ReadWriteNotifier.Read, targetNotifier]
    rw [h]
    rfl
  · intro h
    simp only [ReadWriteNotifier.Read, targetNotifier]
    cases h' : ((onConn targetConn).Read p (now w).2).1.2.1 with
    | none => exact absurd h' h
    | some e => rfl

/-- A completed read of four bytes through the client-facing wrapper leaves the
sink empty; a completed write of four bytes through either wrapper leaves the
same three events, none of them saying which wrapper or which kind of
operation it came from. -/
theorem completed_read_reaches_no_sink :
    ((clientNotifier Script.rw).Read stillClock [0, 0, 0, 0, 0, 0, 0, 0]
        (⟨[(4, none, [1, 2, 3, 4])], []⟩, [])).1 = (4, none, [1, 2, 3, 4]) ∧
    ((clientNotifier Script.rw).Read stillClock [0, 0, 0, 0, 0, 0, 0, 0]
        (⟨[(4, none, [1, 2, 3, 4])], []⟩, [])).2.2 = [] ∧
    ((targetNotifier Script.rw).Write stillClock [1, 2, 3, 4] (⟨[], []⟩, [])).2.2 =
      [SinkEvent.add "request.bytes" 4 [], SinkEvent.record "request.latency" 0 [],
        SinkEvent.printf 4 ⟨0⟩] ∧
    ((clientNotifier Script.rw).Write stillClock [1, 2, 3, 4] (⟨[], []⟩, [])).2.2 =
      [SinkEvent.add "request.bytes" 4 [], SinkEvent.record "request.latency" 0 [],
        SinkEvent.printf 4 ⟨0⟩] := by
  decide

/-- C10. For four bytes written in one millisecond the client-facing
write-observer records 1 on `request.latency` and the upstream-facing one
records 1000. -/
theorem latency_units_differ :
    clientOnWrite 4 ⟨1000000⟩ [] =
      [SinkEvent.add "request.bytes" 4 [], SinkEvent.record "request.latency" 1 [],
        SinkEvent.printf 4 ⟨1000000⟩] ∧
    targetOnWrite 4 ⟨1000000⟩ [] =
      [SinkEvent.add "request.bytes" 4 [], SinkEvent.record "request.latency" 1000 [],
        SinkEvent.printf 4 ⟨1000000⟩] := by
  decide

end TcpProxy
